import Mathlib

/-!
Shallow embedding of the portfolio core of the invest repository: the FIFO
position calculator (src/features/portfolio/hooks/usePortfolioFilters.ts,
class FIFOPositionCalculator), the portfolio aggregator
(src/features/portfolio/domain/portfolio-aggregator.ts), and the price
service with its TTL cache and provider fallback
(src/features/prices/domain/providers/mock-provider.test.ts, classes
PriceCache and PriceService).  Numeric values are modelled as rationals,
dates as natural-number millisecond timestamps (Date.getTime()), and the
stateful price service as explicit state passing together with a log of
the provider invocations it performs.
-/

namespace Invest

/-- Currency, as in prices/domain/types.ts. -/
inductive Currency
  | EUR
  | USD
deriving DecidableEq

/-- Trade direction of a TradeExecution. -/
inductive Direction
  | BUY
  | SELL
deriving DecidableEq

/-- Asset class of a TradeExecution. -/
inductive AssetType
  | STOCK
  | ETF
deriving DecidableEq

/-- Identifier type, as in prices/domain/types.ts. -/
inductive IdentifierType
  | SYMBOL
  | ISIN
deriving DecidableEq

/-- TradeExecution: trade execution data extracted from events
(usePortfolioFilters.ts).  tradeDate is the millisecond timestamp. -/
structure TradeExecution where
  id : String
  isin : String
  symbol : String
  assetType : AssetType
  direction : Direction
  quantity : ℚ
  price : ℚ
  totalValue : ℚ
  fees : ℚ
  commission : ℚ
  totalCost : ℚ
  currency : Currency
  tradeDate : ℕ
  brokerName : String
  accountId : String
deriving DecidableEq

/-- BuyLot: individual buy lot for FIFO tracking. -/
structure BuyLot where
  tradeId : String
  originalQuantity : ℚ
  remainingQuantity : ℚ
  pricePerShare : ℚ
  totalCost : ℚ
  costPerShare : ℚ
  tradeDate : ℕ
  currency : Currency
deriving DecidableEq

/-- RealizedGain: realized gain/loss from one (sell, lot) match. -/
structure RealizedGain where
  sellTradeId : String
  buyTradeId : String
  quantity : ℚ
  sellPrice : ℚ
  buyPrice : ℚ
  grossProceeds : ℚ
  costBasis : ℚ
  realizedGain : ℚ
  sellDate : ℕ
  buyDate : ℕ
  currency : Currency
deriving DecidableEq

/-- AssetPosition: current position for an asset. -/
structure AssetPosition where
  isin : String
  symbol : String
  assetType : AssetType
  currency : Currency
  totalBought : ℚ
  totalSold : ℚ
  currentQuantity : ℚ
  totalCostBasis : ℚ
  averageCostPerShare : ℚ
  totalBuyValue : ℚ
  totalSellValue : ℚ
  totalFeesAndCommissions : ℚ
  totalRealizedGain : ℚ
  realizedGains : List RealizedGain
  remainingLots : List BuyLot
  firstTradeDate : ℕ
  lastTradeDate : ℕ
  tradeCount : ℕ
deriving DecidableEq

/-- The sort order used to sort trades for FIFO:
sort((a, b) => a.tradeDate.getTime() - b.tradeDate.getTime()), i.e. a
stable ascending sort on the trade date; JS Array.prototype.sort is a
stable sort, modelled here by the stable List.insertionSort. -/
def dateLe (a b : TradeExecution) : Prop :=
  a.tradeDate ≤ b.tradeDate

instance : DecidableRel dateLe := fun a b => Nat.decLe a.tradeDate b.tradeDate

instance : IsTotal TradeExecution dateLe := ⟨fun a b => Nat.le_total a.tradeDate b.tradeDate⟩

instance : IsTrans TradeExecution dateLe := ⟨fun _ _ _ => Nat.le_trans⟩

/-- Math.min on rationals. -/
def jsMin (a b : ℚ) : ℚ := if a ≤ b then a else b

/-- Math.max on rationals. -/
def jsMax (a b : ℚ) : ℚ := if a ≤ b then b else a

/-- Initialize one lot from a buy trade (lines 135-144 of the source). -/
def mkLot (buy : TradeExecution) : BuyLot :=
  { tradeId := buy.id
    originalQuantity := buy.quantity
    remainingQuantity := buy.quantity
    pricePerShare := buy.price
    totalCost := buy.totalCost
    costPerShare := buy.totalCost / buy.quantity
    tradeDate := buy.tradeDate
    currency := buy.currency }

/-- The realized gain record created for one (sell, lot) match of
quantity q (lines 159-177 of the source). -/
def mkRealizedGain (sell : TradeExecution) (lot : BuyLot) (q : ℚ) : RealizedGain :=
  { sellTradeId := sell.id
    buyTradeId := lot.tradeId
    quantity := q
    sellPrice := sell.price
    buyPrice := lot.costPerShare
    grossProceeds := q * sell.price
    costBasis := q * lot.costPerShare
    realizedGain := q * sell.price - q * lot.costPerShare
      - (sell.fees + sell.commission) * (q / sell.quantity)
    sellDate := sell.tradeDate
    buyDate := lot.tradeDate
    currency := sell.currency }

/-- The inner while loop of calculateAssetPosition (lines 152-189): while
the sell has remaining quantity and lots remain, consume from the oldest
lot, shifting depleted (remainingQuantity ≤ 0) lots.  Returns the
leftover sell quantity, the surviving lots, and the accumulated realized
gains.  In the branch where the decremented head lot keeps a positive
remaining quantity, the matched quantity necessarily equals the whole
remaining sell quantity (jsMin r lot.rem < lot.rem forces jsMin = r), so the
source loop exits at once with leftover r - q = 0; the equation returns
that very state directly. -/
def processSell (sell : TradeExecution) :
    ℚ → List BuyLot → List RealizedGain → ℚ × List BuyLot × List RealizedGain
  | remaining, [], gains => (remaining, [], gains)
  | remaining, lot :: rest, gains =>
    if remaining > 0 then
      if lot.remainingQuantity ≤ 0 then
        processSell sell remaining rest gains
      else
        let q := jsMin remaining lot.remainingQuantity
        let gains1 := gains ++ [mkRealizedGain sell lot q]
        if lot.remainingQuantity - q ≤ 0 then
          processSell sell (remaining - q) rest gains1
        else
          (remaining - q, { lot with remainingQuantity := lot.remainingQuantity - q } :: rest,
            gains1)
    else (remaining, lot :: rest, gains)

/-- The outer loop over sells (lines 149-196).  A warning is recorded for
a sell exactly when its leftover quantity after matching is positive
(line 193); the warning list carries the leftover quantities. -/
def processSells :
    List TradeExecution → List BuyLot → List RealizedGain → List ℚ →
      List BuyLot × List RealizedGain × List ℚ
  | [], lots, gains, warns => (lots, gains, warns)
  | sell :: rest, lots, gains, warns =>
    let r := processSell sell sell.quantity lots gains
    let warns1 := if r.1 > 0 then warns ++ [r.1] else warns
    processSells rest r.2.1 r.2.2 warns1

/-- The body of calculateAssetPosition applied to the date-sorted trade
list (everything after line 126).  Returns the position together with
the list of short-position warnings emitted on the way. -/
def calculateFromSorted (sortedTrades : List TradeExecution) :
    Option (AssetPosition × List ℚ) :=
  match sortedTrades with
  | [] => none
  | firstTrade :: _ =>
    let buys := sortedTrades.filter (fun t => t.direction == Direction.BUY)
    let sells := sortedTrades.filter (fun t => t.direction == Direction.SELL)
    let lots0 := buys.map mkLot
    let res := processSells sells lots0 [] []
    let lots := res.1
    let realizedGains := res.2.1
    let warns := res.2.2
    let totalBought := (buys.map (fun t => t.quantity)).sum
    let totalSold := (sells.map (fun t => t.quantity)).sum
    let currentQuantity := jsMax 0 (totalBought - totalSold)
    let totalBuyValue := (buys.map (fun t => t.totalValue)).sum
    let totalSellValue := (sells.map (fun t => t.totalValue)).sum
    let totalFeesAndCommissions := (sortedTrades.map (fun t => t.fees + t.commission)).sum
    let totalCostBasis := (lots.map (fun lot => lot.remainingQuantity * lot.costPerShare)).sum
    let averageCostPerShare := if currentQuantity > 0 then totalCostBasis / currentQuantity else 0
    let totalRealizedGain := (realizedGains.map (fun g => g.realizedGain)).sum
    some
      ({ isin := firstTrade.isin
         symbol := firstTrade.symbol
         assetType := firstTrade.assetType
         currency := firstTrade.currency
         totalBought := totalBought
         totalSold := totalSold
         currentQuantity := currentQuantity
         totalCostBasis := totalCostBasis
         averageCostPerShare := averageCostPerShare
         totalBuyValue := totalBuyValue
         totalSellValue := totalSellValue
         totalFeesAndCommissions := totalFeesAndCommissions
         totalRealizedGain := totalRealizedGain
         realizedGains := realizedGains
         remainingLots := lots.filter (fun lot => lot.remainingQuantity > 0)
         firstTradeDate := firstTrade.tradeDate
         lastTradeDate := (sortedTrades.getLast?.map (fun t => t.tradeDate)).getD firstTrade.tradeDate
         tradeCount := sortedTrades.length },
       warns)

/-- FIFOPositionCalculator.calculateAssetPosition (lines 122-238),
additionally returning the short-position warnings the source logs via
console.warn.  The empty-input null return and the sort happen here; the
firstTrade null check is the empty match case of calculateFromSorted. -/
def calculateAssetPositionFull (trades : List TradeExecution) :
    Option (AssetPosition × List ℚ) :=
  if trades.isEmpty then none
  else calculateFromSorted (List.insertionSort dateLe trades)

/-- calculateAssetPosition as the source exposes it: the position alone. -/
def calculateAssetPosition (trades : List TradeExecution) : Option AssetPosition :=
  (calculateAssetPositionFull trades).map Prod.fst

/-- The date-sorted sell list the FIFO loop iterates over. -/
def sellsOf (trades : List TradeExecution) : List TradeExecution :=
  (List.insertionSort dateLe trades).filter (fun t => t.direction == Direction.SELL)

/-- The date-sorted buy list. -/
def buysOf (trades : List TradeExecution) : List TradeExecution :=
  (List.insertionSort dateLe trades).filter (fun t => t.direction == Direction.BUY)

/-- The initial lot list the FIFO loop starts from. -/
def initialLots (trades : List TradeExecution) : List BuyLot :=
  (buysOf trades).map mkLot

/-- The lot state after processing a list of sells against the given lots. -/
def lotsAfter (sells : List TradeExecution) (lots : List BuyLot) : List BuyLot :=
  (processSells sells lots [] []).1

/-! ### Price service: types (prices/domain/types.ts) -/

/-- Error codes of PriceServiceResponse. -/
inductive PriceErrorCode
  | NOT_FOUND
  | RATE_LIMITED
  | INVALID_SYMBOL
  | NETWORK_ERROR
  | API_ERROR
deriving DecidableEq

/-- PriceData (prices/domain/types.ts); optional fields are Options,
timestamp is a millisecond timestamp. -/
structure PriceData where
  identifier : String
  identifierType : IdentifierType
  symbol : String
  name : String
  price : ℚ
  currency : Currency
  timestamp : ℕ
  change : Option ℚ
  changePercent : Option ℚ
  previousClose : Option ℚ
deriving DecidableEq

/-- PriceRequest. -/
structure PriceRequest where
  identifier : String
  identifierType : IdentifierType
  currency : Option Currency
deriving DecidableEq

/-- PriceServiceResponse specialized to a single PriceData payload. -/
structure PriceResponse where
  success : Bool
  data : Option PriceData
  error : Option String
  code : Option PriceErrorCode
deriving DecidableEq

/-- PriceServiceResponse specialized to a list payload (batch). -/
structure BatchResponse where
  success : Bool
  data : Option (List PriceData)
  error : Option String
  code : Option PriceErrorCode
deriving DecidableEq

/-- CacheEntry of the price cache. -/
structure CacheEntry where
  data : PriceData
  timestamp : ℕ
  expiresAt : ℕ
deriving DecidableEq

/-- A price provider, modelled by its name, priority, health-check
result and pure responses to single and batch lookups (the PriceProvider
interface of types.ts; the mock provider and the test providers are all
deterministic, so a provider is a record of pure functions). -/
structure Provider where
  name : String
  priority : ℤ
  healthy : Bool
  priceOf : PriceRequest → PriceResponse
  batchOf : List PriceRequest → BatchResponse

/-- One observable provider invocation made by the service. -/
inductive ProviderCall
  | health (provider : String)
  | price (provider : String) (req : PriceRequest)
  | batch (provider : String) (reqs : List PriceRequest)
deriving DecidableEq

/-! ### PriceCache (mock-provider.test.ts lines 568-608) -/

def currencyKey : Currency → String
  | Currency.EUR => "EUR"
  | Currency.USD => "USD"

def identifierTypeKey : IdentifierType → String
  | IdentifierType.SYMBOL => "SYMBOL"
  | IdentifierType.ISIN => "ISIN"

/-- PriceCache.generateKey. -/
def generateKey (identifier : String) (identifierType : IdentifierType)
    (currency : Currency) : String :=
  identifierTypeKey identifierType ++ ":" ++ identifier ++ ":" ++ currencyKey currency

/-- The cache map, as an association list with unique keys: a JS Map
whose set overwrites in place and whose get returns the stored value. -/
abbrev PriceCacheMap := List (String × CacheEntry)

/-- JS Map.get. -/
def mapGet (m : PriceCacheMap) (k : String) : Option CacheEntry :=
  (m.find? (fun p => p.1 == k)).map (fun p => p.2)

/-- JS Map.set: overwrite the entry in place if the key exists, append
otherwise. -/
def mapSet (m : PriceCacheMap) (k : String) (v : CacheEntry) : PriceCacheMap :=
  if m.any (fun p => p.1 == k) then
    m.map (fun p => if p.1 == k then (k, v) else p)
  else m ++ [(k, v)]

/-- JS Map.delete. -/
def mapDelete (m : PriceCacheMap) (k : String) : PriceCacheMap :=
  m.filter (fun p => p.1 != k)

/-- The default TTL: 15 minutes in milliseconds. -/
def defaultTTL : ℕ := 15 * 60 * 1000

/-- PriceCache.set: expiresAt = Date.now() + (ttl || defaultTTL). -/
def cacheSet (m : PriceCacheMap) (now : ℕ) (identifier : String)
    (identifierType : IdentifierType) (currency : Currency) (data : PriceData)
    (ttl : Option ℕ) : PriceCacheMap :=
  let key := generateKey identifier identifierType currency
  mapSet m key { data := data, timestamp := now, expiresAt := now + ttl.getD defaultTTL }

/-- PriceCache.get: a present entry is served while now ≤ expiresAt; an
entry with now > expiresAt is deleted and treated as absent.  Returns
the datum (if served) and the possibly updated cache. -/
def cacheGet (m : PriceCacheMap) (now : ℕ) (identifier : String)
    (identifierType : IdentifierType) (currency : Currency) :
    Option PriceData × PriceCacheMap :=
  let key := generateKey identifier identifierType currency
  match mapGet m key with
  | none => (none, m)
  | some entry =>
    if now > entry.expiresAt then (none, mapDelete m key)
    else (some entry.data, m)

/-! ### PriceService (mock-provider.test.ts lines 613-829) -/

/-- The service state: the priority-sorted provider list and the cache. -/
structure ServiceState where
  providers : List Provider
  cache : PriceCacheMap

/-- The ascending-priority sort order of initializeProviders:
sort((a, b) => a.priority - b.priority), a stable ascending sort. -/
def prioLe (a b : Provider) : Prop :=
  a.priority ≤ b.priority

instance : DecidableRel prioLe := fun a b => Int.decLe a.priority b.priority

instance : IsTotal Provider prioLe := ⟨fun a b => Int.le_total a.priority b.priority⟩

instance : IsTrans Provider prioLe := ⟨fun _ _ _ => Int.le_trans⟩

/-- Service construction: providers sorted by ascending priority, empty
cache (initializeProviders). -/
def mkService (providers : List Provider) : ServiceState :=
  { providers := List.insertionSort prioLe providers, cache := [] }

/-- PriceService.tryProvider: health check, then the provider lookup;
an unhealthy provider yields an API_ERROR failure without a price call.
Also returns the invocations performed. -/
def tryProvider (p : Provider) (req : PriceRequest) : PriceResponse × List ProviderCall :=
  if p.healthy then
    (p.priceOf req, [ProviderCall.health p.name, ProviderCall.price p.name req])
  else
    ({ success := false, data := none,
       error := some ("Provider " ++ p.name ++ " is not healthy"),
       code := some PriceErrorCode.API_ERROR },
     [ProviderCall.health p.name])

/-- The provider loop of getCurrentPrice (lines 677-690): return the
first response with success && data; otherwise move on (the explicit
RATE_LIMITED continue in the source is behaviorally the same as the
implicit fall-through).  Returns none when every provider fails. -/
def runProviders (req : PriceRequest) :
    List Provider → Option PriceResponse × List ProviderCall
  | [] => (none, [])
  | p :: rest =>
    let r := tryProvider p req
    if r.1.success && r.1.data.isSome then (some r.1, r.2)
    else
      let rec1 := runProviders req rest
      (rec1.1, r.2 ++ rec1.2)

/-- PriceService.getCurrentPrice (lines 664-697): currency defaults to
USD; a cache hit is returned without touching any provider; otherwise
the providers are tried in order and a success is cached with the
default TTL; if all fail, a NOT_FOUND failure is returned. -/
def svcGetCurrentPrice (st : ServiceState) (now : ℕ) (req : PriceRequest) :
    PriceResponse × ServiceState × List ProviderCall :=
  let currency := req.currency.getD Currency.USD
  let looked := cacheGet st.cache now req.identifier req.identifierType currency
  match looked.1 with
  | some cached =>
    ({ success := true, data := some cached, error := none, code := none },
     { st with cache := looked.2 }, [])
  | none =>
    let run := runProviders { req with currency := some currency } st.providers
    match run.1 with
    | some res =>
      let cache2 :=
        match res.data with
        | some d => cacheSet looked.2 now req.identifier req.identifierType currency d none
        | none => looked.2
      (res, { st with cache := cache2 }, run.2)
    | none =>
      ({ success := false, data := none,
         error := some ("No provider could fetch price for " ++ req.identifier),
         code := some PriceErrorCode.NOT_FOUND },
       { st with cache := looked.2 }, run.2)

/-- The key used to match a batch response item against outstanding
requests (lines 748-754). -/
def dataKey (d : PriceData) : String :=
  identifierTypeKey d.identifierType ++ ":" ++ d.identifier ++ ":" ++ currencyKey d.currency

/-- The same key computed from a (currency-defaulted) request. -/
def requestKey (r : PriceRequest) : String :=
  identifierTypeKey r.identifierType ++ ":" ++ r.identifier ++ ":"
    ++ currencyKey (r.currency.getD Currency.USD)

/-- The provider loop of getBatchPrices (lines 724-763): break once no
request remains unresolved; skip unhealthy providers; on a successful
batch response append its items to the results, cache each with the
default TTL, and drop the resolved keys from the outstanding list. -/
def batchLoop (now : ℕ) :
    List Provider → List PriceRequest → List PriceData → PriceCacheMap → List ProviderCall →
      List PriceData × PriceCacheMap × List ProviderCall
  | [], _, results, cache, calls => (results, cache, calls)
  | p :: rest, failed, results, cache, calls =>
    if failed.isEmpty then (results, cache, calls)
    else if p.healthy then
      let br := p.batchOf failed
      let calls1 := calls ++ [ProviderCall.health p.name, ProviderCall.batch p.name failed]
      match br.data with
      | some ds =>
        if br.success then
          let results1 := results ++ ds
          let cache1 := ds.foldl
            (fun c d => cacheSet c now d.identifier d.identifierType d.currency d none) cache
          let keys := ds.map dataKey
          let failed1 := failed.filter (fun r => !(keys.contains (requestKey r)))
          batchLoop now rest failed1 results1 cache1 calls1
        else batchLoop now rest failed results cache calls1
      | none => batchLoop now rest failed results cache calls1
    else batchLoop now rest failed results cache (calls ++ [ProviderCall.health p.name])

/-- The cache-partition phase of getBatchPrices (lines 704-713): split
the requests into cache hits and currency-defaulted misses, threading
the cache through each lookup (expired entries are evicted as they are
met). -/
def batchPartition (cache : PriceCacheMap) (now : ℕ) :
    List PriceRequest → List PriceData × List PriceRequest × PriceCacheMap
  | [] => ([], [], cache)
  | r :: rest =>
    let currency := r.currency.getD Currency.USD
    let looked := cacheGet cache now r.identifier r.identifierType currency
    let tail := batchPartition looked.2 now rest
    match looked.1 with
    | some d => (d :: tail.1, tail.2.1, tail.2.2)
    | none => (tail.1, { r with currency := some currency } :: tail.2.1, tail.2.2)

/-- PriceService.getBatchPrices (lines 699-769). -/
def svcGetBatchPrices (st : ServiceState) (now : ℕ) (reqs : List PriceRequest) :
    BatchResponse × ServiceState × List ProviderCall :=
  let part := batchPartition st.cache now reqs
  let results := part.1
  let failed := part.2.1
  let cache1 := part.2.2
  if failed.isEmpty then
    ({ success := true, data := some results, error := none, code := none },
     { st with cache := cache1 }, [])
  else
    let run := batchLoop now st.providers failed results cache1 []
    ({ success := true, data := some run.1, error := none, code := none },
     { st with cache := run.2.1 }, run.2.2)

/-! ### FIFOPositionCalculator.calculatePortfolioPositions (lines 243-266) -/

/-- Insertion keeping first-occurrence order, as the grouping Map of
calculatePortfolioPositions builds its keys. -/
def insertKey (ks : List String) (k : String) : List String :=
  if k ∈ ks then ks else ks ++ [k]

/-- The distinct ISINs in first-occurrence order. -/
def assetKeys (allTrades : List TradeExecution) : List String :=
  allTrades.foldl (fun ks t => insertKey ks t.isin) []

/-- Descending current-quantity order of calculatePortfolioPositions:
comparator (a, b) => b.currentQuantity - a.currentQuantity. -/
def qtyGe (a b : AssetPosition) : Prop :=
  b.currentQuantity ≤ a.currentQuantity

instance : DecidableRel qtyGe := fun a b =>
  inferInstanceAs (Decidable (b.currentQuantity ≤ a.currentQuantity))

instance : IsTotal AssetPosition qtyGe := ⟨fun a b => le_total b.currentQuantity a.currentQuantity⟩

instance : IsTrans AssetPosition qtyGe := ⟨fun _ _ _ h1 h2 => le_trans h2 h1⟩

/-- Descending order on timestamps: comparator (a, b) => b - a. -/
def natGe (a b : ℕ) : Prop :=
  b ≤ a

instance : DecidableRel natGe := fun a b => Nat.decLe b a

instance : IsTotal ℕ natGe := ⟨fun a b => Nat.le_total b a⟩

instance : IsTrans ℕ natGe := ⟨fun _ _ _ h1 h2 => Nat.le_trans h2 h1⟩

/-- FIFOPositionCalculator.calculatePortfolioPositions: group trades by
ISIN (insertion order), compute each asset position, keep those with a
positive current quantity, and sort by descending current quantity
(stable, comparator (a, b) => b.currentQuantity - a.currentQuantity). -/
def calculatePortfolioPositions (allTrades : List TradeExecution) : List AssetPosition :=
  let positions := (assetKeys allTrades).filterMap (fun key =>
    match calculateAssetPosition (allTrades.filter (fun t => t.isin == key)) with
    | some position => if position.currentQuantity > 0 then some position else none
    | none => none)
  List.insertionSort qtyGe positions

/-! ### PortfolioAggregator (portfolio-aggregator.ts) -/

/-- PortfolioPosition (prices/domain/types.ts): input of the batch price
enrichment. -/
structure PortfolioPosition where
  isin : String
  symbol : String
  quantity : ℚ
  currency : Currency
deriving DecidableEq

/-- The EnrichedPosition of prices/domain/types.ts (the price service's
per-position enrichment result), named SvcEnrichedPosition here to keep
it apart from the aggregator's EnrichedPosition below. -/
structure SvcEnrichedPosition extends PortfolioPosition where
  priceData : Option PriceData
  currentValue : Option ℚ
  error : Option String
deriving DecidableEq

/-- The EnrichedPosition of portfolio-aggregator.ts: an AssetPosition
with market data. -/
structure EnrichedPosition extends AssetPosition where
  currentPrice : ℚ
  priceData : Option PriceData
  currentMarketValue : ℚ
  unrealizedGain : ℚ
  unrealizedGainPercent : ℚ
  totalGain : ℚ
  totalGainPercent : ℚ
  dailyChange : Option ℚ
  dailyChangePercent : Option ℚ
  priceLastUpdated : Option ℕ
  priceError : Option String
deriving DecidableEq

/-- JS Map.get on the aggregator's price map. -/
def pmGet (m : List (String × PriceData)) (k : String) : Option PriceData :=
  (m.find? (fun p => p.1 == k)).map (fun p => p.2)

/-- JS Map.set on the aggregator's price map. -/
def pmSet (m : List (String × PriceData)) (k : String) (v : PriceData) :
    List (String × PriceData) :=
  if m.any (fun p => p.1 == k) then
    m.map (fun p => if p.1 == k then (k, v) else p)
  else m ++ [(k, v)]

/-- The price map built from the service enrichment output
(lines 101-108): keyed by isin || symbol joined with the currency. -/
def buildPriceMap (enrichedSvc : List SvcEnrichedPosition) : List (String × PriceData) :=
  enrichedSvc.foldl (fun m e =>
    match e.priceData with
    | some pd =>
      pmSet m ((if e.isin = "" then e.symbol else e.isin) ++ ":" ++ currencyKey e.currency) pd
    | none => m) []

/-- The per-position combination step of getEnrichedPositions
(lines 111-151): join the price by isin and currency, then compute the
valuation metrics. -/
def enrichPosition (priceMap : List (String × PriceData))
    (position : AssetPosition) : EnrichedPosition :=
  let priceData := pmGet priceMap (position.isin ++ ":" ++ currencyKey position.currency)
  let currentPrice : ℚ := (priceData.map (fun d => d.price)).getD 0
  let currentMarketValue : ℚ := position.currentQuantity * currentPrice
  let unrealizedGain : ℚ := currentMarketValue - position.totalCostBasis
  let unrealizedGainPercent : ℚ :=
    if position.totalCostBasis > 0 then unrealizedGain / position.totalCostBasis * 100 else 0
  let totalGain : ℚ := position.totalRealizedGain + unrealizedGain
  let totalGainPercent : ℚ :=
    if position.totalBuyValue > 0 then totalGain / position.totalBuyValue * 100 else 0
  let dailyChange : Option ℚ :=
    match priceData with
    | some pd =>
      match pd.change with
      | some c =>
        if c ≠ 0 ∧ position.currentQuantity ≠ 0 then some (c * position.currentQuantity)
        else none
      | none => none
    | none => none
  let dailyChangePercent := priceData.bind (fun d => d.changePercent)
  { toAssetPosition := position
    currentPrice := currentPrice
    priceData := priceData
    currentMarketValue := currentMarketValue
    unrealizedGain := unrealizedGain
    unrealizedGainPercent := unrealizedGainPercent
    totalGain := totalGain
    totalGainPercent := totalGainPercent
    dailyChange := dailyChange
    dailyChangePercent := dailyChangePercent
    priceLastUpdated := priceData.map (fun d => d.timestamp)
    priceError := if priceData.isSome then none else some "Price data not available" }

/-- PortfolioAggregator.getEnrichedPositions (lines 85-152).  The call
to priceService.enrichPortfolioPositions is the svcEnrich parameter (the
aggregator awaits the singleton service; any response list is allowed
here). -/
def getEnrichedPositions
    (svcEnrich : List PortfolioPosition -> List SvcEnrichedPosition)
    (trades : List TradeExecution) : List EnrichedPosition :=
  let positions := calculatePortfolioPositions trades
  if positions.isEmpty then []
  else
    let portfolioPositions : List PortfolioPosition := positions.map (fun p =>
      { isin := p.isin, symbol := p.symbol, quantity := p.currentQuantity,
        currency := p.currency })
    let priceMap := buildPriceMap (svcEnrich portfolioPositions)
    positions.map (enrichPosition priceMap)

/-- One entry of the currency aggregation map of getPortfolioSummary. -/
structure CurrencyAgg where
  positions : ℕ
  invested : ℚ
  marketValue : ℚ
deriving DecidableEq

/-- One entry of the currencyBreakdown list. -/
structure CurrencyBreakdownEntry where
  currency : Currency
  positions : ℕ
  invested : ℚ
  marketValue : ℚ
  percentage : ℚ
deriving DecidableEq

/-- PortfolioSummary (portfolio-aggregator.ts). -/
structure PortfolioSummary where
  totalInvested : ℚ
  totalMarketValue : ℚ
  totalUnrealizedGain : ℚ
  totalUnrealizedGainPercent : ℚ
  totalRealizedGain : ℚ
  totalGain : ℚ
  totalGainPercent : ℚ
  totalDailyChange : ℚ
  totalDailyChangePercent : ℚ
  positionCount : ℕ
  totalShares : ℚ
  averagePositionSize : ℚ
  totalFeesAndCommissions : ℚ
  currencyBreakdown : List CurrencyBreakdownEntry
  lastUpdated : ℕ
  pricesLastUpdated : Option ℕ
  positionsWithoutPrices : ℕ
deriving DecidableEq

/-- PortfolioAggregator.getPortfolioSummary (lines 157-236); now models
the new Date() of lastUpdated. -/
def getPortfolioSummary
    (svcEnrich : List PortfolioPosition → List SvcEnrichedPosition)
    (now : ℕ) (trades : List TradeExecution) : PortfolioSummary :=
  let enrichedPositions := getEnrichedPositions svcEnrich trades
  let totalInvested := (enrichedPositions.map (fun p => p.totalCostBasis)).sum
  let totalMarketValue := (enrichedPositions.map (fun p => p.currentMarketValue)).sum
  let totalRealizedGain := (enrichedPositions.map (fun p => p.totalRealizedGain)).sum
  let totalUnrealizedGain := (enrichedPositions.map (fun p => p.unrealizedGain)).sum
  let totalGain := totalRealizedGain + totalUnrealizedGain
  let totalUnrealizedGainPercent :=
    if totalInvested > 0 then totalUnrealizedGain / totalInvested * 100 else 0
  let totalGainPercent := if totalInvested > 0 then totalGain / totalInvested * 100 else 0
  let totalDailyChange := (enrichedPositions.map (fun p => p.dailyChange.getD 0)).sum
  let previousValue := totalMarketValue - totalDailyChange
  let totalDailyChangePercent :=
    if previousValue > 0 then totalDailyChange / previousValue * 100 else 0
  let positionCount := enrichedPositions.length
  let totalShares := (enrichedPositions.map (fun p => p.currentQuantity)).sum
  let averagePositionSize :=
    if positionCount > 0 then totalMarketValue / (positionCount : ℚ) else 0
  let totalFeesAndCommissions := (enrichedPositions.map (fun p => p.totalFeesAndCommissions)).sum
  let positionsWithoutPrices := (enrichedPositions.filter (fun p => p.priceData.isNone)).length
  let currencyMap := enrichedPositions.foldl (fun m p =>
    if m.any (fun e => e.1 == p.currency) then
      m.map (fun e =>
        if e.1 == p.currency then
          (e.1, { positions := e.2.positions + 1,
                  invested := e.2.invested + p.totalCostBasis,
                  marketValue := e.2.marketValue + p.currentMarketValue })
        else e)
    else
      m ++ [(p.currency,
        ({ positions := 1, invested := p.totalCostBasis,
           marketValue := p.currentMarketValue } : CurrencyAgg))])
    ([] : List (Currency × CurrencyAgg))
  let currencyBreakdown := currencyMap.map (fun e =>
    ({ currency := e.1, positions := e.2.positions, invested := e.2.invested,
       marketValue := e.2.marketValue,
       percentage :=
         if totalMarketValue > 0 then e.2.marketValue / totalMarketValue * 100 else 0 } :
      CurrencyBreakdownEntry))
  let pricesLastUpdated :=
    (List.insertionSort natGe
      (enrichedPositions.filterMap (fun p => p.priceLastUpdated))).head?
  { totalInvested := totalInvested
    totalMarketValue := totalMarketValue
    totalUnrealizedGain := totalUnrealizedGain
    totalUnrealizedGainPercent := totalUnrealizedGainPercent
    totalRealizedGain := totalRealizedGain
    totalGain := totalGain
    totalGainPercent := totalGainPercent
    totalDailyChange := totalDailyChange
    totalDailyChangePercent := totalDailyChangePercent
    positionCount := positionCount
    totalShares := totalShares
    averagePositionSize := averagePositionSize
    totalFeesAndCommissions := totalFeesAndCommissions
    currencyBreakdown := currencyBreakdown
    lastUpdated := now
    pricesLastUpdated := pricesLastUpdated
    positionsWithoutPrices := positionsWithoutPrices }

/-! ### Derived notions used by the statements -/

/-- Decrement the head lot's remaining quantity by d (no-op on []). -/
def decHead (d : ℚ) : List BuyLot → List BuyLot
  | [] => []
  | lot :: rest => { lot with remainingQuantity := lot.remainingQuantity - d } :: rest

/-- lots2 arises from lots by FIFO consumption: a front segment of lots
has been removed, the next lot has been decremented by some nonnegative
d bounded by its remaining quantity, and every later lot is untouched. -/
def ConsumedFrom (lots lots2 : List BuyLot) : Prop :=
  ∃ k d, 0 ≤ d ∧ lots2 = decHead d (lots.drop k) ∧
    (d = 0 ∨ ∃ l, (lots.drop k).head? = some l ∧ d ≤ l.remainingQuantity)

/-- Sum of the remaining quantities of a lot list. -/
def sumRemaining (lots : List BuyLot) : ℚ :=
  (lots.map (fun l => l.remainingQuantity)).sum

/-- Total bought quantity of a trade list. -/
def totalBuyQuantity (trades : List TradeExecution) : ℚ :=
  ((buysOf trades).map (fun t => t.quantity)).sum

/-- The total lot quantity still available when the i-th sell (in date
order) is processed, assuming every earlier sell matched in full. -/
def sellAvailable (trades : List TradeExecution) (i : ℕ) : ℚ :=
  totalBuyQuantity trades - (((sellsOf trades).take i).map (fun t => t.quantity)).sum

/-- No sell's quantity exceeds the lot quantity available when it is
processed. -/
def NoShortAttempt (trades : List TradeExecution) : Prop :=
  ∀ i : Fin (sellsOf trades).length,
    ((sellsOf trades).get i).quantity ≤ sellAvailable trades i

/-- Some sell's quantity exceeds the lot quantity available when it is
processed. -/
def ShortAttempt (trades : List TradeExecution) : Prop :=
  ∃ i : Fin (sellsOf trades).length,
    sellAvailable trades i < ((sellsOf trades).get i).quantity

instance (trades : List TradeExecution) : Decidable (NoShortAttempt trades) :=
  inferInstanceAs (Decidable (∀ i : Fin (sellsOf trades).length,
    ((sellsOf trades).get i).quantity ≤ sellAvailable trades i))

instance (trades : List TradeExecution) : Decidable (ShortAttempt trades) :=
  inferInstanceAs (Decidable (∃ i : Fin (sellsOf trades).length,
    sellAvailable trades i < ((sellsOf trades).get i).quantity))

/-- Number of single-price provider lookups in a call log. -/
def countPriceCalls (calls : List ProviderCall) : ℕ :=
  (calls.filter (fun c =>
    match c with
    | ProviderCall.price _ _ => true
    | _ => false)).length

/-- The provider is healthy and answers the request successfully with a
datum. -/
def providerOk (req : PriceRequest) (p : Provider) : Prop :=
  p.healthy = true ∧ (p.priceOf req).success = true ∧ (p.priceOf req).data.isSome = true

instance (req : PriceRequest) (p : Provider) : Decidable (providerOk req p) :=
  inferInstanceAs (Decidable (p.healthy = true ∧ (p.priceOf req).success = true
    ∧ (p.priceOf req).data.isSome = true))

/-! ### Concrete sample data for the closed checks -/

/-- BUY 100@150 on day 1 (test scenario of the repository). -/
def sampleBuy1 : TradeExecution :=
  { id := "buy-1", isin := "US0378331005", symbol := "AAPL", assetType := AssetType.STOCK,
    direction := Direction.BUY, quantity := 100, price := 150, totalValue := 15000,
    fees := 1, commission := 1, totalCost := 15002, currency := Currency.USD,
    tradeDate := 1, brokerName := "Test Broker", accountId := "ACC123" }

/-- BUY 50@160 on day 2. -/
def sampleBuy2 : TradeExecution :=
  { id := "buy-2", isin := "US0378331005", symbol := "AAPL", assetType := AssetType.STOCK,
    direction := Direction.BUY, quantity := 50, price := 160, totalValue := 8000,
    fees := 1, commission := 1, totalCost := 8002, currency := Currency.USD,
    tradeDate := 2, brokerName := "Test Broker", accountId := "ACC123" }

/-- SELL 75@170 on day 3. -/
def sampleSell : TradeExecution :=
  { id := "sell-1", isin := "US0378331005", symbol := "AAPL", assetType := AssetType.STOCK,
    direction := Direction.SELL, quantity := 75, price := 170, totalValue := 12750,
    fees := 1, commission := 1, totalCost := 12748, currency := Currency.USD,
    tradeDate := 3, brokerName := "Test Broker", accountId := "ACC123" }

/-- The partial-FIFO test scenario, deliberately out of date order. -/
def sampleTrades : List TradeExecution := [sampleBuy2, sampleBuy1, sampleSell]

/-- Another input order of the same trades. -/
def sampleTradesPermuted : List TradeExecution := [sampleSell, sampleBuy1, sampleBuy2]

/-- SELL 75 against a single BUY 50: the short-position scenario. -/
def sampleShortTrades : List TradeExecution :=
  [ { sampleBuy1 with quantity := 50, totalValue := 7500, totalCost := 7502 },
    sampleSell ]

/-- A sample quote. -/
def samplePriceData : PriceData :=
  { identifier := "AAPL", identifierType := IdentifierType.SYMBOL, symbol := "AAPL",
    name := "Apple Inc.", price := 178, currency := Currency.USD, timestamp := 0,
    change := some 2, changePercent := some 1, previousClose := some 176 }

/-- A sample price request. -/
def sampleRequest : PriceRequest :=
  { identifier := "AAPL", identifierType := IdentifierType.SYMBOL,
    currency := some Currency.USD }

/-- A healthy provider (priority 2) that always answers samplePriceData. -/
def okProvider : Provider :=
  { name := "P2", priority := 2, healthy := true,
    priceOf := fun _ =>
      { success := true, data := some samplePriceData, error := none, code := none },
    batchOf := fun _ =>
      { success := true, data := some [samplePriceData], error := none, code := none } }

/-- A healthy provider (priority 1) that always fails. -/
def failProvider : Provider :=
  { name := "P1", priority := 1, healthy := true,
    priceOf := fun _ =>
      { success := false, data := none, error := some "no data",
        code := some PriceErrorCode.NOT_FOUND },
    batchOf := fun _ =>
      { success := false, data := none, error := some "no data",
        code := some PriceErrorCode.NOT_FOUND } }

/-- A single BUY 2@3 used for the aggregator checks. -/
def sampleSmallBuy : TradeExecution :=
  { id := "b1", isin := "ISIN1", symbol := "AAA", assetType := AssetType.STOCK,
    direction := Direction.BUY, quantity := 2, price := 3, totalValue := 6,
    fees := 0, commission := 0, totalCost := 6, currency := Currency.USD,
    tradeDate := 1, brokerName := "b", accountId := "a" }

/-- A price-service stub resolving nothing. -/
def svcEnrichNone : List PortfolioPosition → List SvcEnrichedPosition :=
  fun _ => []

/-- A quote for ISIN1 whose daily change is exactly zero. -/
def zeroChangeData : PriceData :=
  { identifier := "ISIN1", identifierType := IdentifierType.ISIN, symbol := "AAA",
    name := "AAA Corp", price := 5, currency := Currency.USD, timestamp := 7,
    change := some 0, changePercent := some 0, previousClose := some 5 }

/-- A price-service stub resolving every position with zeroChangeData. -/
def svcEnrichZero : List PortfolioPosition → List SvcEnrichedPosition :=
  fun l => l.map (fun pp =>
    { toPortfolioPosition := pp, priceData := some zeroChangeData,
      currentValue := none, error := none })

/-! ## Lemmas about the FIFO loop -/

theorem jsMin_eq_min (a b : ℚ) : jsMin a b = min a b := by
  rw [jsMin, min_def]

theorem jsMax_eq_max (a b : ℚ) : jsMax a b = max a b := by
  rw [jsMax, max_def]

theorem processSell_nil (sell : TradeExecution) (r : ℚ) (gains : List RealizedGain) :
    processSell sell r [] gains = (r, [], gains) := rfl

theorem processSell_cons (sell : TradeExecution) (r : ℚ) (lot : BuyLot)
    (rest : List BuyLot) (gains : List RealizedGain) :
    processSell sell r (lot :: rest) gains =
      if r > 0 then
        if lot.remainingQuantity ≤ 0 then processSell sell r rest gains
        else
          let q := jsMin r lot.remainingQuantity
          let gains1 := gains ++ [mkRealizedGain sell lot q]
          if lot.remainingQuantity - q ≤ 0 then processSell sell (r - q) rest gains1
          else (r - q, { lot with remainingQuantity := lot.remainingQuantity - q } :: rest,
            gains1)
      else (r, lot :: rest, gains) := rfl

/-- The realized-gain accumulator only grows by appending. -/
theorem processSell_acc (sell : TradeExecution) (r : ℚ) (lots : List BuyLot)
    (gains : List RealizedGain) :
    processSell sell r lots gains =
      ((processSell sell r lots []).1, (processSell sell r lots []).2.1,
        gains ++ (processSell sell r lots []).2.2) := by
  induction lots generalizing r gains with
  | nil => simp [processSell_nil]
  | cons lot rest ih =>
    simp only [processSell_cons]
    by_cases hr : r > 0
    · simp only [if_pos hr]
      by_cases hl : lot.remainingQuantity ≤ 0
      · simp only [if_pos hl]
        rw [ih r gains, ih r []]
      · simp only [if_neg hl]
        by_cases hd : lot.remainingQuantity - jsMin r lot.remainingQuantity ≤ 0
        · simp only [if_pos hd]
          rw [ih (r - jsMin r lot.remainingQuantity)
                (gains ++ [mkRealizedGain sell lot (jsMin r lot.remainingQuantity)]),
              ih (r - jsMin r lot.remainingQuantity)
                ([] ++ [mkRealizedGain sell lot (jsMin r lot.remainingQuantity)])]
          simp
        · simp only [if_neg hd]
          simp
    · simp [if_neg hr]

/-- Leftover sell quantity stays nonnegative. -/
theorem processSell_leftover_nonneg (sell : TradeExecution) (r : ℚ) (lots : List BuyLot)
    (gains : List RealizedGain) (hr : 0 ≤ r) :
    0 ≤ (processSell sell r lots gains).1 := by
  induction lots generalizing r gains with
  | nil => simpa [processSell_nil] using hr
  | cons lot rest ih =>
    simp only [processSell_cons]
    by_cases hrp : r > 0
    · simp only [if_pos hrp]
      by_cases hl : lot.remainingQuantity ≤ 0
      · simp only [if_pos hl]; exact ih r gains hr
      · simp only [if_neg hl]
        have hq : jsMin r lot.remainingQuantity ≤ r := by
          rw [jsMin_eq_min]; exact min_le_left _ _
        by_cases hd : lot.remainingQuantity - jsMin r lot.remainingQuantity ≤ 0
        · simp only [if_pos hd]
          exact ih (r - jsMin r lot.remainingQuantity) _ (by linarith)
        · simp only [if_neg hd]
          simpa using by linarith
    · simpa [if_neg hrp] using hr

/-- Remaining lot quantities stay nonnegative. -/
theorem processSell_nonneg (sell : TradeExecution) (r : ℚ) (lots : List BuyLot)
    (gains : List RealizedGain) (h : ∀ lot ∈ lots, 0 ≤ lot.remainingQuantity) :
    ∀ lot ∈ (processSell sell r lots gains).2.1, 0 ≤ lot.remainingQuantity := by
  induction lots generalizing r gains with
  | nil => simp [processSell_nil]
  | cons lot rest ih =>
    have hrest : ∀ l ∈ rest, 0 ≤ l.remainingQuantity := fun l hl => h l (List.mem_cons_of_mem _ hl)
    simp only [processSell_cons]
    by_cases hrp : r > 0
    · simp only [if_pos hrp]
      by_cases hl : lot.remainingQuantity ≤ 0
      · simp only [if_pos hl]; exact ih r gains hrest
      · simp only [if_neg hl]
        by_cases hd : lot.remainingQuantity - jsMin r lot.remainingQuantity ≤ 0
        · simp only [if_pos hd]; exact ih _ _ hrest
        · simp only [if_neg hd]
          intro l hm
          rcases List.mem_cons.mp hm with hm | hm
          · subst hm; simpa using le_of_lt (lt_of_not_le hd)
          · exact hrest l hm
    · simpa [if_neg hrp] using h

theorem decHead_zero (l : List BuyLot) : decHead 0 l = l := by
  cases l with
  | nil => rfl
  | cons lot rest => simp [decHead]

theorem decHead_drop {k : ℕ} (hk : 1 ≤ k) (d : ℚ) (l : List BuyLot) :
    (decHead d l).drop k = l.drop k := by
  cases l with
  | nil => simp [decHead]
  | cons lot rest =>
    cases k with
    | zero => omega
    | succ k2 => simp [decHead]

theorem consumedFrom_refl (lots : List BuyLot) : ConsumedFrom lots lots :=
  ⟨0, 0, le_refl 0, by simp [decHead_zero], Or.inl rfl⟩

theorem consumedFrom_trans {l1 l2 l3 : List BuyLot}
    (h12 : ConsumedFrom l1 l2) (h23 : ConsumedFrom l2 l3) : ConsumedFrom l1 l3 := by
  obtain ⟨k1, d1, hd1, he1, hb1⟩ := h12
  obtain ⟨k2, d2, hd2, he2, hb2⟩ := h23
  cases k2 with
  | zero =>
    rw [List.drop_zero] at he2 hb2
    cases hdrop : l1.drop k1 with
    | nil =>
      rw [hdrop] at he1
      simp only [decHead] at he1
      subst he1
      refine ⟨k1, 0, le_refl 0, ?_, Or.inl rfl⟩
      rw [hdrop]
      simpa [decHead] using he2
    | cons lot rest =>
      rw [hdrop] at he1 hb1
      subst he1
      refine ⟨k1, d1 + d2, by linarith, ?_, ?_⟩
      · rw [hdrop]
        rw [he2]
        simp [decHead, sub_sub]
      · rcases hb2 with h2z | ⟨l2h, hl2h, hle2⟩
        · subst h2z
          rcases hb1 with h1z | ⟨l1h, hl1h, hle1⟩
          · subst h1z
            exact Or.inl (by ring)
          · rw [hdrop]
            simp only [List.head?_cons, Option.some.injEq] at hl1h
            exact Or.inr ⟨lot, rfl, by rw [← hl1h] at hle1; linarith⟩
        · simp only [decHead, List.head?_cons, Option.some.injEq] at hl2h
          rw [hdrop]
          refine Or.inr ⟨lot, rfl, ?_⟩
          rw [← hl2h] at hle2
          simp only at hle2
          linarith
  | succ k2p =>
    have hdd : l2.drop (k2p + 1) = l1.drop (k1 + (k2p + 1)) := by
      rw [he1, decHead_drop (by omega), List.drop_drop]
    refine ⟨k1 + (k2p + 1), d2, hd2, ?_, ?_⟩
    · rw [← hdd]; exact he2
    · rw [← hdd]; exact hb2

theorem processSell_consumedFrom (sell : TradeExecution) (r : ℚ) (lots : List BuyLot)
    (gains : List RealizedGain) :
    ConsumedFrom lots (processSell sell r lots gains).2.1 := by
  induction lots generalizing r gains with
  | nil =>
    simp only [processSell_nil]
    exact consumedFrom_refl []
  | cons lot rest ih =>
    simp only [processSell_cons]
    by_cases hr : r > 0
    · simp only [if_pos hr]
      by_cases hl : lot.remainingQuantity ≤ 0
      · simp only [if_pos hl]
        obtain ⟨k, d, hd, he, hb⟩ := ih r gains
        exact ⟨k + 1, d, hd, by simpa using he, by simpa using hb⟩
      · simp only [if_neg hl]
        by_cases hdp : lot.remainingQuantity - jsMin r lot.remainingQuantity ≤ 0
        · simp only [if_pos hdp]
          obtain ⟨k, d, hd, he, hb⟩ := ih (r - jsMin r lot.remainingQuantity)
            (gains ++ [mkRealizedGain sell lot (jsMin r lot.remainingQuantity)])
          exact ⟨k + 1, d, hd, by simpa using he, by simpa using hb⟩
        · simp only [if_neg hdp]
          refine ⟨0, jsMin r lot.remainingQuantity, ?_, by simp [decHead], Or.inr ⟨lot, rfl, ?_⟩⟩
          · rw [jsMin_eq_min]
            exact le_min (le_of_lt hr) (le_of_lt (lt_of_not_le hl))
          · rw [jsMin_eq_min]
            exact min_le_right _ _
    · simp only [if_neg hr]
      exact consumedFrom_refl _

theorem processSells_nil (lots : List BuyLot) (gains : List RealizedGain) (warns : List ℚ) :
    processSells [] lots gains warns = (lots, gains, warns) := rfl

theorem processSells_cons (s : TradeExecution) (rest : List TradeExecution)
    (lots : List BuyLot) (gains : List RealizedGain) (warns : List ℚ) :
    processSells (s :: rest) lots gains warns =
      processSells rest (processSell s s.quantity lots gains).2.1
        (processSell s s.quantity lots gains).2.2
        (if (processSell s s.quantity lots gains).1 > 0
          then warns ++ [(processSell s s.quantity lots gains).1] else warns) := rfl

/-- The gains and warning accumulators only grow by appending. -/
theorem processSells_acc (sells : List TradeExecution) (lots : List BuyLot)
    (gains : List RealizedGain) (warns : List ℚ) :
    processSells sells lots gains warns =
      ((processSells sells lots [] []).1,
       gains ++ (processSells sells lots [] []).2.1,
       warns ++ (processSells sells lots [] []).2.2) := by
  induction sells generalizing lots gains warns with
  | nil => simp [processSells_nil]
  | cons s rest ih =>
    rw [processSells_cons, processSells_cons, processSell_acc s s.quantity lots gains]
    dsimp only
    rw [ih ((processSell s s.quantity lots []).2.1)
        (gains ++ (processSell s s.quantity lots []).2.2)
        (if (processSell s s.quantity lots []).1 > 0
          then warns ++ [(processSell s s.quantity lots []).1] else warns),
      ih ((processSell s s.quantity lots []).2.1)
        ((processSell s s.quantity lots []).2.2)
        (if (processSell s s.quantity lots []).1 > 0
          then [] ++ [(processSell s s.quantity lots []).1] else [])]
    by_cases h0 : (processSell s s.quantity lots []).1 > 0 <;>
      simp [h0, List.append_assoc]

theorem lotsAfter_nil (lots : List BuyLot) : lotsAfter [] lots = lots := rfl

theorem lotsAfter_cons (s : TradeExecution) (rest : List TradeExecution) (lots : List BuyLot) :
    lotsAfter (s :: rest) lots = lotsAfter rest (processSell s s.quantity lots []).2.1 := by
  unfold lotsAfter
  rw [processSells_cons]
  rw [processSells_acc rest ((processSell s s.quantity lots []).2.1)
      ((processSell s s.quantity lots []).2.2)
      (if (processSell s s.quantity lots []).1 > 0
        then [] ++ [(processSell s s.quantity lots []).1] else [])]

theorem lotsAfter_append (s1 s2 : List TradeExecution) (lots : List BuyLot) :
    lotsAfter (s1 ++ s2) lots = lotsAfter s2 (lotsAfter s1 lots) := by
  induction s1 generalizing lots with
  | nil => simp [lotsAfter_nil]
  | cons s rest ih => rw [List.cons_append, lotsAfter_cons, ih, lotsAfter_cons]

theorem processSells_consumedFrom (sells : List TradeExecution) (lots : List BuyLot) :
    ConsumedFrom lots (lotsAfter sells lots) := by
  induction sells generalizing lots with
  | nil => exact consumedFrom_refl lots
  | cons s rest ih =>
    rw [lotsAfter_cons]
    exact consumedFrom_trans (processSell_consumedFrom s s.quantity lots []) (ih _)

theorem lotsAfter_nonneg (sells : List TradeExecution) (lots : List BuyLot)
    (h : ∀ lot ∈ lots, 0 ≤ lot.remainingQuantity) :
    ∀ lot ∈ lotsAfter sells lots, 0 ≤ lot.remainingQuantity := by
  induction sells generalizing lots with
  | nil => exact h
  | cons s rest ih =>
    rw [lotsAfter_cons]
    exact ih _ (processSell_nonneg s s.quantity lots [] h)

theorem initialLots_sorted (trades : List TradeExecution) :
    (initialLots trades).Pairwise (fun a b => a.tradeDate ≤ b.tradeDate) := by
  have hs : (List.insertionSort dateLe trades).Pairwise dateLe :=
    List.sorted_insertionSort dateLe trades
  have hf : ((List.insertionSort dateLe trades).filter
      (fun t => t.direction == Direction.BUY)).Pairwise dateLe := hs.filter _
  exact hf.map mkLot (fun a b h => h)

theorem initialLots_nonneg (trades : List TradeExecution)
    (h : ∀ t ∈ trades, 0 ≤ t.quantity) :
    ∀ lot ∈ initialLots trades, 0 ≤ lot.remainingQuantity := by
  intro lot hm
  unfold initialLots buysOf at hm
  obtain ⟨t, ht, rfl⟩ := List.mem_map.mp hm
  exact h t ((List.perm_insertionSort dateLe trades).mem_iff.mp (List.mem_of_mem_filter ht))

/-- Unfolds calculateAssetPositionFull for a trade list whose sorted
form is nonempty, exposing the fields the claims are about. -/
theorem calculateAssetPositionFull_spec (trades : List TradeExecution)
    (f : TradeExecution) (rest : List TradeExecution)
    (hs : List.insertionSort dateLe trades = f :: rest) :
    ∃ pos warns, calculateAssetPositionFull trades = some (pos, warns) ∧
      pos.realizedGains = (processSells (sellsOf trades) (initialLots trades) [] []).2.1 ∧
      warns = (processSells (sellsOf trades) (initialLots trades) [] []).2.2 ∧
      pos.remainingLots = (lotsAfter (sellsOf trades) (initialLots trades)).filter
        (fun lot => lot.remainingQuantity > 0) ∧
      pos.totalBought = totalBuyQuantity trades ∧
      pos.totalSold = ((sellsOf trades).map (fun t => t.quantity)).sum ∧
      pos.currentQuantity = jsMax 0 (pos.totalBought - pos.totalSold) ∧
      pos.totalRealizedGain = (pos.realizedGains.map (fun g => g.realizedGain)).sum := by
  have hne : trades.isEmpty = false := by
    cases trades with
    | nil => simp at hs
    | cons _ _ => rfl
  unfold calculateAssetPositionFull
  rw [hne]
  simp only [Bool.false_eq_true, if_false]
  rw [hs]
  unfold calculateFromSorted
  refine ⟨_, _, rfl, ?_, ?_, ?_, ?_, ?_, ?_, ?_⟩ <;>
    simp only [sellsOf, initialLots, buysOf, lotsAfter, totalBuyQuantity, hs]

/-- C1: calculateAssetPosition consumes buy lots strictly in ascending
trade-date order: the initial lot list is date-sorted; after any prefix
of the sell sequence the lot state is an in-order consumption of the
initial lots (a removed front segment, one decremented head, an
untouched tail), and each further sell only consumes onward from there,
so no lot's remaining quantity ever increases and a later lot is only
decremented once every earlier lot has left the list; with nonnegative
trade quantities every intermediate remaining quantity stays
nonnegative (lots are removed exactly when depleted); the returned
remainingLots are the positive-remainder survivors of that process. -/
theorem claim1_fifo_lot_consumption (trades : List TradeExecution) :
    (initialLots trades).Pairwise (fun a b => a.tradeDate ≤ b.tradeDate) ∧
    (∀ pre suf, sellsOf trades = pre ++ suf →
      ConsumedFrom (initialLots trades) (lotsAfter pre (initialLots trades)) ∧
      ConsumedFrom (lotsAfter pre (initialLots trades))
        (lotsAfter (pre ++ suf) (initialLots trades))) ∧
    ((∀ t ∈ trades, 0 ≤ t.quantity) →
      ∀ pre suf, sellsOf trades = pre ++ suf →
        ∀ lot ∈ lotsAfter pre (initialLots trades), 0 ≤ lot.remainingQuantity) ∧
    (∀ pos, calculateAssetPosition trades = some pos →
      pos.remainingLots = (lotsAfter (sellsOf trades) (initialLots trades)).filter
        (fun lot => lot.remainingQuantity > 0)) := by
  refine ⟨initialLots_sorted trades, ?_, ?_, ?_⟩
  · intro pre suf _
    refine ⟨processSells_consumedFrom pre _, ?_⟩
    rw [lotsAfter_append]
    exact processSells_consumedFrom suf _
  · intro hq pre suf _
    exact lotsAfter_nonneg pre _ (initialLots_nonneg trades hq)
  · intro pos h
    unfold calculateAssetPosition at h
    cases hs : List.insertionSort dateLe trades with
    | nil =>
      have htr : trades = [] :=
        ((hs ▸ List.perm_insertionSort dateLe trades).symm).eq_nil
      rw [htr] at h
      simp [calculateAssetPositionFull] at h
    | cons f rest =>
      obtain ⟨pos2, warns, heq, _, _, hrem, _⟩ :=
        calculateAssetPositionFull_spec trades f rest hs
      rw [heq] at h
      rw [Option.map_some'] at h
      rw [Option.some.injEq] at h
      rw [← h]
      exact hrem

theorem sumRemaining_nil : sumRemaining [] = 0 := rfl

theorem sumRemaining_cons (lot : BuyLot) (rest : List BuyLot) :
    sumRemaining (lot :: rest) = lot.remainingQuantity + sumRemaining rest := by
  simp [sumRemaining]

/-- The matched quantity of one sell is its initial remaining quantity
minus the leftover. -/
theorem processSell_matched (sell : TradeExecution) (r : ℚ) (lots : List BuyLot) :
    (((processSell sell r lots []).2.2).map (fun g => g.quantity)).sum
      = r - (processSell sell r lots []).1 := by
  induction lots generalizing r with
  | nil => simp [processSell_nil]
  | cons lot rest ih =>
    simp only [processSell_cons]
    by_cases hr : r > 0
    · simp only [if_pos hr]
      by_cases hl : lot.remainingQuantity ≤ 0
      · simp only [if_pos hl]; exact ih r
      · simp only [if_neg hl]
        by_cases hd : lot.remainingQuantity - jsMin r lot.remainingQuantity ≤ 0
        · simp only [if_pos hd, List.nil_append]
          rw [processSell_acc sell (r - jsMin r lot.remainingQuantity) rest
            [mkRealizedGain sell lot (jsMin r lot.remainingQuantity)]]
          have := ih (r - jsMin r lot.remainingQuantity)
          simp only [List.map_append, List.sum_append, List.map_cons, List.map_nil,
            List.sum_cons, List.sum_nil, mkRealizedGain] at this ⊢
          linarith
        · simp only [if_neg hd, List.nil_append]
          simp [mkRealizedGain]
    · simp [if_neg hr]

/-- With nonnegative lots, total remaining quantity drops by exactly
the matched quantity. -/
theorem processSell_sum (sell : TradeExecution) (r : ℚ) (lots : List BuyLot)
    (h : ∀ lot ∈ lots, 0 ≤ lot.remainingQuantity) :
    sumRemaining (processSell sell r lots []).2.1
      = sumRemaining lots - (r - (processSell sell r lots []).1) := by
  induction lots generalizing r with
  | nil => simp [processSell_nil, sumRemaining_nil]
  | cons lot rest ih =>
    have hrest : ∀ l ∈ rest, 0 ≤ l.remainingQuantity :=
      fun l hl => h l (List.mem_cons_of_mem _ hl)
    have hlot : 0 ≤ lot.remainingQuantity := h lot (List.mem_cons_self _ _)
    simp only [processSell_cons]
    by_cases hr : r > 0
    · simp only [if_pos hr]
      by_cases hl : lot.remainingQuantity ≤ 0
      · simp only [if_pos hl]
        have h0 : lot.remainingQuantity = 0 := le_antisymm hl hlot
        rw [ih r hrest, sumRemaining_cons, h0]
        ring
      · simp only [if_neg hl]
        have hqr : jsMin r lot.remainingQuantity ≤ lot.remainingQuantity := by
          rw [jsMin_eq_min]; exact min_le_right _ _
        by_cases hd : lot.remainingQuantity - jsMin r lot.remainingQuantity ≤ 0
        · simp only [if_pos hd, List.nil_append]
          rw [processSell_acc sell (r - jsMin r lot.remainingQuantity) rest
            [mkRealizedGain sell lot (jsMin r lot.remainingQuantity)]]
          have hq : jsMin r lot.remainingQuantity = lot.remainingQuantity :=
            le_antisymm hqr (by linarith)
          dsimp only
          rw [ih (r - jsMin r lot.remainingQuantity) hrest, sumRemaining_cons, hq]
          ring
        · simp only [if_neg hd, List.nil_append]
          rw [sumRemaining_cons, sumRemaining_cons]
          ring
    · simp only [if_neg hr]
      ring_nf

/-- If the sell quantity fits in the available lot quantity, the
leftover is zero. -/
theorem processSell_leftover_zero (sell : TradeExecution) (r : ℚ) (lots : List BuyLot)
    (hr : 0 ≤ r) (h : ∀ lot ∈ lots, 0 ≤ lot.remainingQuantity)
    (hle : r ≤ sumRemaining lots) :
    (processSell sell r lots []).1 = 0 := by
  induction lots generalizing r with
  | nil =>
    rw [sumRemaining_nil] at hle
    simp only [processSell_nil]
    linarith
  | cons lot rest ih =>
    have hrest : ∀ l ∈ rest, 0 ≤ l.remainingQuantity :=
      fun l hl => h l (List.mem_cons_of_mem _ hl)
    have hlot : 0 ≤ lot.remainingQuantity := h lot (List.mem_cons_self _ _)
    rw [sumRemaining_cons] at hle
    simp only [processSell_cons]
    by_cases hr0 : r > 0
    · simp only [if_pos hr0]
      by_cases hl : lot.remainingQuantity ≤ 0
      · simp only [if_pos hl]
        have h0 : lot.remainingQuantity = 0 := le_antisymm hl hlot
        exact ih r hr0.le hrest (by linarith)
      · simp only [if_neg hl]
        have hqr : jsMin r lot.remainingQuantity ≤ lot.remainingQuantity := by
          rw [jsMin_eq_min]; exact min_le_right _ _
        have hql : jsMin r lot.remainingQuantity ≤ r := by
          rw [jsMin_eq_min]; exact min_le_left _ _
        by_cases hd : lot.remainingQuantity - jsMin r lot.remainingQuantity ≤ 0
        · simp only [if_pos hd, List.nil_append]
          rw [processSell_acc sell (r - jsMin r lot.remainingQuantity) rest
            [mkRealizedGain sell lot (jsMin r lot.remainingQuantity)]]
          have hq : jsMin r lot.remainingQuantity = lot.remainingQuantity :=
            le_antisymm hqr (by linarith)
          dsimp only
          exact ih (r - jsMin r lot.remainingQuantity) (by linarith) hrest (by linarith [hq])
        · simp only [if_neg hd, List.nil_append]
          by_cases hrq : r ≤ lot.remainingQuantity
          · rw [jsMin, if_pos hrq]; ring
          · exfalso
            rw [jsMin, if_neg hrq] at hd
            simp at hd
    · simp only [if_neg hr0]
      linarith [not_lt.mp hr0]

/-- Every emitted gain of one sell has the shape built by
mkRealizedGain for that sell. -/
theorem processSell_gain_shape (sell : TradeExecution) (r : ℚ) (lots : List BuyLot) :
    ∀ g ∈ (processSell sell r lots []).2.2,
      g.sellTradeId = sell.id ∧ g.sellPrice = sell.price ∧
      g.realizedGain = g.quantity * g.sellPrice - g.quantity * g.buyPrice
        - (sell.fees + sell.commission) * (g.quantity / sell.quantity) := by
  induction lots generalizing r with
  | nil => simp [processSell_nil]
  | cons lot rest ih =>
    simp only [processSell_cons]
    by_cases hr : r > 0
    · simp only [if_pos hr]
      by_cases hl : lot.remainingQuantity ≤ 0
      · simp only [if_pos hl]; exact ih r
      · simp only [if_neg hl]
        by_cases hd : lot.remainingQuantity - jsMin r lot.remainingQuantity ≤ 0
        · simp only [if_pos hd, List.nil_append]
          rw [processSell_acc sell (r - jsMin r lot.remainingQuantity) rest
            [mkRealizedGain sell lot (jsMin r lot.remainingQuantity)]]
          intro g hg
          dsimp only at hg
          rcases List.mem_append.mp hg with hg | hg
          · rcases List.mem_singleton.mp hg with rfl
            exact ⟨rfl, rfl, rfl⟩
          · exact ih (r - jsMin r lot.remainingQuantity) g hg
        · simp only [if_neg hd, List.nil_append]
          intro g hg
          rcases List.mem_singleton.mp hg with rfl
          exact ⟨rfl, rfl, rfl⟩
    · simp [if_neg hr]

/-- Summing the per-match shape over a gain list. -/
theorem sum_realizedGain_of_shape (sell : TradeExecution) (gl : List RealizedGain)
    (h : ∀ g ∈ gl, g.realizedGain = g.quantity * g.sellPrice - g.quantity * g.buyPrice
        - (sell.fees + sell.commission) * (g.quantity / sell.quantity)) :
    (gl.map (fun g => g.realizedGain)).sum
      = (gl.map (fun g => g.quantity * g.sellPrice)).sum
        - (gl.map (fun g => g.quantity * g.buyPrice)).sum
        - (sell.fees + sell.commission) * ((gl.map (fun g => g.quantity)).sum / sell.quantity) := by
  induction gl with
  | nil => simp
  | cons g rest ih =>
    have hg := h g (List.mem_cons_self _ _)
    have hrest := fun x hx => h x (List.mem_cons_of_mem _ hx)
    simp only [List.map_cons, List.sum_cons, ih hrest, hg]
    ring

/-- The realized-gain list splits sell by sell. -/
theorem processSells_gains_split (s : TradeExecution) (rest : List TradeExecution)
    (lots : List BuyLot) :
    (processSells (s :: rest) lots [] []).2.1
      = (processSell s s.quantity lots []).2.2
        ++ (processSells rest (processSell s s.quantity lots []).2.1 [] []).2.1 := by
  rw [processSells_cons]
  rw [processSells_acc rest ((processSell s s.quantity lots []).2.1)
      ((processSell s s.quantity lots []).2.2)
      (if (processSell s s.quantity lots []).1 > 0
        then [] ++ [(processSell s s.quantity lots []).1] else [])]

/-- The warning list splits sell by sell. -/
theorem processSells_warns_split (s : TradeExecution) (rest : List TradeExecution)
    (lots : List BuyLot) :
    (processSells (s :: rest) lots [] []).2.2
      = (if (processSell s s.quantity lots []).1 > 0
          then [(processSell s s.quantity lots []).1] else [])
        ++ (processSells rest (processSell s s.quantity lots []).2.1 [] []).2.2 := by
  rw [processSells_cons]
  rw [processSells_acc rest ((processSell s s.quantity lots []).2.1)
      ((processSell s s.quantity lots []).2.2)
      (if (processSell s s.quantity lots []).1 > 0
        then [] ++ [(processSell s s.quantity lots []).1] else [])]
  by_cases h0 : (processSell s s.quantity lots []).1 > 0 <;> simp [h0]

theorem sumRemaining_nonneg (l : List BuyLot)
    (h : ∀ lot ∈ l, 0 ≤ lot.remainingQuantity) : 0 ≤ sumRemaining l := by
  induction l with
  | nil => simp [sumRemaining_nil]
  | cons lot rest ih =>
    rw [sumRemaining_cons]
    exact add_nonneg (h lot (List.mem_cons_self _ _))
      (ih (fun x hx => h x (List.mem_cons_of_mem _ hx)))

theorem sumRemaining_initialLots (trades : List TradeExecution) :
    sumRemaining (initialLots trades) = totalBuyQuantity trades := by
  simp [sumRemaining, initialLots, totalBuyQuantity, List.map_map, Function.comp_def, mkLot]

theorem sum_filter_pos (l : List BuyLot)
    (h : ∀ lot ∈ l, 0 ≤ lot.remainingQuantity) :
    ((l.filter (fun lot => lot.remainingQuantity > 0)).map
      (fun lot => lot.remainingQuantity)).sum = sumRemaining l := by
  induction l with
  | nil => simp [sumRemaining_nil]
  | cons lot rest ih =>
    have hrest := fun x hx => h x (List.mem_cons_of_mem _ hx)
    have hlot := h lot (List.mem_cons_self _ _)
    rw [sumRemaining_cons, List.filter_cons]
    by_cases hp : lot.remainingQuantity > 0
    · rw [if_pos (by simpa using hp), List.map_cons, List.sum_cons, ih hrest]
    · have h0 : lot.remainingQuantity = 0 := le_antisymm (not_lt.mp hp) hlot
      rw [if_neg (by simpa using hp), ih hrest, h0, zero_add]

/-- Conservation along the whole sell sequence under no short attempt:
remaining quantity drops by exactly the sold quantity, no warning is
emitted, and the realized-gain total decomposes into proceeds minus
matched cost minus the full sell fees. -/
theorem processSells_conservation (sells : List TradeExecution) (lots : List BuyLot)
    (hl : ∀ lot ∈ lots, 0 ≤ lot.remainingQuantity)
    (hq : ∀ s ∈ sells, 0 < s.quantity)
    (hns : ∀ pre s suf, sells = pre ++ s :: suf →
      s.quantity ≤ sumRemaining lots - ((pre.map (fun t => t.quantity)).sum)) :
    sumRemaining (processSells sells lots [] []).1
      = sumRemaining lots - ((sells.map (fun t => t.quantity)).sum) ∧
    (processSells sells lots [] []).2.2 = [] ∧
    ((processSells sells lots [] []).2.1.map (fun g => g.realizedGain)).sum
      = ((processSells sells lots [] []).2.1.map (fun g => g.quantity * g.sellPrice)).sum
        - ((processSells sells lots [] []).2.1.map (fun g => g.quantity * g.buyPrice)).sum
        - ((sells.map (fun s => s.fees + s.commission)).sum) := by
  induction sells generalizing lots with
  | nil => simp [processSells_nil]
  | cons s rest ih =>
    have hs0 : s.quantity ≤ sumRemaining lots := by
      have h := hns [] s rest rfl
      simpa using h
    have hsq : 0 < s.quantity := hq s (List.mem_cons_self _ _)
    have hlz : (processSell s s.quantity lots []).1 = 0 :=
      processSell_leftover_zero s s.quantity lots hsq.le hl hs0
    have hlots2 : ∀ lot ∈ (processSell s s.quantity lots []).2.1, 0 ≤ lot.remainingQuantity :=
      processSell_nonneg s s.quantity lots [] hl
    have hsum2 : sumRemaining (processSell s s.quantity lots []).2.1
        = sumRemaining lots - s.quantity := by
      rw [processSell_sum s s.quantity lots hl, hlz]
      ring
    have hmatched : (((processSell s s.quantity lots []).2.2).map (fun g => g.quantity)).sum
        = s.quantity := by
      rw [processSell_matched, hlz]
      ring
    have hns2 : ∀ pre s2 suf, rest = pre ++ s2 :: suf →
        s2.quantity ≤ sumRemaining (processSell s s.quantity lots []).2.1
          - ((pre.map (fun t => t.quantity)).sum) := by
      intro pre s2 suf hdec
      have h := hns (s :: pre) s2 suf (by rw [hdec]; rfl)
      rw [hsum2]
      simp only [List.map_cons, List.sum_cons] at h
      linarith
    obtain ⟨ih1, ih2, ih3⟩ := ih (processSell s s.quantity lots []).2.1 hlots2
      (fun x hx => hq x (List.mem_cons_of_mem _ hx)) hns2
    have hlotslink : (processSells (s :: rest) lots [] []).1
        = (processSells rest (processSell s s.quantity lots []).2.1 [] []).1 := by
      rw [processSells_cons, processSells_acc rest ((processSell s s.quantity lots []).2.1)
        ((processSell s s.quantity lots []).2.2)
        (if (processSell s s.quantity lots []).1 > 0
          then [] ++ [(processSell s s.quantity lots []).1] else [])]
    refine ⟨?_, ?_, ?_⟩
    · rw [hlotslink, ih1, hsum2]
      simp only [List.map_cons, List.sum_cons]
      ring
    · rw [processSells_warns_split, hlz]
      simp [ih2]
    · rw [processSells_gains_split]
      have hshape := processSell_gain_shape s s.quantity lots
      have hsumG := sum_realizedGain_of_shape s ((processSell s s.quantity lots []).2.2)
        (fun g hg => (hshape g hg).2.2)
      simp only [List.map_append, List.sum_append, List.map_cons, List.sum_cons]
      rw [hsumG, ih3, hmatched, div_self (ne_of_gt hsq)]
      ring

/-- Every emitted gain record stems from some sell of the list, with the
proportional fee allocation of that sell. -/
theorem processSells_gain_origin (sells : List TradeExecution) (lots : List BuyLot) :
    ∀ g ∈ (processSells sells lots [] []).2.1, ∃ s, s ∈ sells ∧
      g.sellTradeId = s.id ∧ g.sellPrice = s.price ∧
      g.realizedGain = g.quantity * g.sellPrice - g.quantity * g.buyPrice
        - (s.fees + s.commission) * (g.quantity / s.quantity) := by
  induction sells generalizing lots with
  | nil => simp [processSells_nil]
  | cons s rest ih =>
    rw [processSells_gains_split]
    intro g hg
    rcases List.mem_append.mp hg with hg | hg
    · obtain ⟨h1, h2, h3⟩ := processSell_gain_shape s s.quantity lots g hg
      exact ⟨s, List.mem_cons_self _ _, h1, h2, h3⟩
    · obtain ⟨s2, hs2, hh⟩ := ih _ g hg
      exact ⟨s2, List.mem_cons_of_mem _ hs2, hh⟩

/-- The Fin-indexed no-short hypothesis, read at a decomposition of the
sell list. -/
theorem noShort_to_decomp (trades : List TradeExecution) (h : NoShortAttempt trades) :
    ∀ pre s suf, sellsOf trades = pre ++ s :: suf →
      s.quantity ≤ sumRemaining (initialLots trades)
        - ((pre.map (fun t => t.quantity)).sum) := by
  intro pre s suf hd
  have hlen : pre.length < (sellsOf trades).length := by
    rw [hd, List.length_append, List.length_cons]
    omega
  have hh := h ⟨pre.length, hlen⟩
  have hget : (sellsOf trades).get ⟨pre.length, hlen⟩ = s := by
    rw [List.get_eq_getElem]
    simp only [hd]
    rw [List.getElem_append_right (le_refl pre.length)]
    simp
  rw [hget] at hh
  unfold sellAvailable at hh
  have htake : (sellsOf trades).take pre.length = pre := by
    rw [hd]
    exact List.take_left pre (s :: suf)
  rw [htake] at hh
  rwa [sumRemaining_initialLots]

/-- C2: with positive trade quantities and no short attempt, the sum of
remaining lot quantities equals totalBought minus totalSold, and the
total realized gain equals the independently recomputed sum over all
(sell, lot) matches: proceeds minus matched lot cost at costPerShare
minus the sells' fees and commissions (allocated in full, since each
sell matches completely); every match record carries its sell's price
and the proportional fee allocation matchedQuantity / sellQuantity. -/
theorem claim2_conservation (trades : List TradeExecution)
    (hq : ∀ t ∈ trades, 0 < t.quantity)
    (hns : NoShortAttempt trades) :
    ∀ pos, calculateAssetPosition trades = some pos →
      ((pos.remainingLots.map (fun l => l.remainingQuantity)).sum
        = pos.totalBought - pos.totalSold) ∧
      (pos.totalRealizedGain
        = (pos.realizedGains.map (fun g => g.quantity * g.sellPrice)).sum
          - (pos.realizedGains.map (fun g => g.quantity * g.buyPrice)).sum
          - ((sellsOf trades).map (fun s => s.fees + s.commission)).sum) ∧
      (∀ g ∈ pos.realizedGains, ∃ s, s ∈ sellsOf trades ∧
        g.sellTradeId = s.id ∧ g.sellPrice = s.price ∧
        g.realizedGain = g.quantity * g.sellPrice - g.quantity * g.buyPrice
          - (s.fees + s.commission) * (g.quantity / s.quantity)) := by
  intro pos h
  unfold calculateAssetPosition at h
  cases hs : List.insertionSort dateLe trades with
  | nil =>
    have htr : trades = [] :=
      ((hs ▸ List.perm_insertionSort dateLe trades).symm).eq_nil
    rw [htr] at h
    simp [calculateAssetPositionFull] at h
  | cons f rest =>
    obtain ⟨pos2, warns, heq, hgains, hwarns, hrem, hbought, hsold, hcur, htot⟩ :=
      calculateAssetPositionFull_spec trades f rest hs
    rw [heq, Option.map_some'] at h
    rw [Option.some.injEq] at h
    subst h
    have hsells_pos : ∀ s ∈ sellsOf trades, 0 < s.quantity := fun s hsm =>
      hq s ((List.perm_insertionSort dateLe trades).mem_iff.mp (List.mem_of_mem_filter hsm))
    have hlots0 : ∀ lot ∈ initialLots trades, 0 ≤ lot.remainingQuantity :=
      initialLots_nonneg trades (fun t ht => (hq t ht).le)
    obtain ⟨hc1, hc2, hc3⟩ := processSells_conservation (sellsOf trades) (initialLots trades)
      hlots0 hsells_pos (noShort_to_decomp trades hns)
    refine ⟨?_, ?_, ?_⟩
    · rw [hrem]
      have hfin : ∀ lot ∈ lotsAfter (sellsOf trades) (initialLots trades),
          0 ≤ lot.remainingQuantity := lotsAfter_nonneg _ _ hlots0
      rw [sum_filter_pos _ hfin]
      rw [show lotsAfter (sellsOf trades) (initialLots trades)
        = (processSells (sellsOf trades) (initialLots trades) [] []).1 from rfl]
      rw [hc1, sumRemaining_initialLots, hbought, hsold]
    · rw [htot, hgains, hc3]
    · rw [hgains]
      exact processSells_gain_origin (sellsOf trades) (initialLots trades)

/-- Closed check for C2 on the repository test scenario. -/
theorem claim2_witness :
    ∃ pos, calculateAssetPosition sampleTrades = some pos ∧
      (pos.remainingLots.map (fun l => l.remainingQuantity)).sum
        = pos.totalBought - pos.totalSold := by
  obtain ⟨pos, hpos⟩ := Option.isSome_iff_exists.mp
    (show (calculateAssetPosition sampleTrades).isSome = true from by with_unfolding_all rfl)
  exact ⟨pos, hpos,
    (claim2_conservation sampleTrades (of_decide_eq_true (by with_unfolding_all rfl))
      (of_decide_eq_true (by with_unfolding_all rfl)) pos hpos).1⟩

/-- Every recorded warning is positive. -/
theorem processSells_warns_pos (sells : List TradeExecution) (lots : List BuyLot) :
    ∀ w ∈ (processSells sells lots [] []).2.2, 0 < w := by
  induction sells generalizing lots with
  | nil => simp [processSells_nil]
  | cons s rest ih =>
    rw [processSells_warns_split]
    intro w hw
    rcases List.mem_append.mp hw with hw | hw
    · by_cases h0 : (processSell s s.quantity lots []).1 > 0
      · rw [if_pos h0] at hw
        rcases List.mem_singleton.mp hw with rfl
        exact h0
      · rw [if_neg h0] at hw
        cases hw
    · exact ih _ w hw

/-- Total sold quantity splits into matched quantity plus warned
(unmatched) quantity. -/
theorem processSells_sold_split (sells : List TradeExecution) (lots : List BuyLot)
    (hq : ∀ s ∈ sells, 0 ≤ s.quantity) :
    (sells.map (fun t => t.quantity)).sum
      = ((processSells sells lots [] []).2.1.map (fun g => g.quantity)).sum
        + ((processSells sells lots [] []).2.2).sum := by
  induction sells generalizing lots with
  | nil => simp [processSells_nil]
  | cons s rest ih =>
    rw [processSells_gains_split, processSells_warns_split]
    have hmatch := processSell_matched s s.quantity lots
    have hnn := processSell_leftover_nonneg s s.quantity lots []
      (hq s (List.mem_cons_self _ _))
    simp only [List.map_cons, List.sum_cons, List.map_append, List.sum_append]
    rw [ih _ (fun x hx => hq x (List.mem_cons_of_mem _ hx))]
    by_cases h0 : (processSell s s.quantity lots []).1 > 0
    · rw [if_pos h0]
      simp only [List.sum_append, List.sum_cons, List.sum_nil]
      linarith [hmatch]
    · rw [if_neg h0]
      have hz : (processSell s s.quantity lots []).1 = 0 := le_antisymm (not_lt.mp h0) hnn
      simp only [List.sum_nil]
      linarith [hmatch, hz]

/-- A sell whose quantity exceeds the available lot quantity leaves a
positive leftover, hence a warning; earlier fitting sells do not. -/
theorem processSells_short_warns (pre : List TradeExecution) (s : TradeExecution)
    (suf : List TradeExecution) (lots : List BuyLot)
    (hl : ∀ lot ∈ lots, 0 ≤ lot.remainingQuantity)
    (hq : ∀ t ∈ pre, 0 < t.quantity) (_hsq : 0 < s.quantity)
    (hpre : ∀ p1 t p2, pre = p1 ++ t :: p2 →
      t.quantity ≤ sumRemaining lots - ((p1.map (fun x => x.quantity)).sum))
    (hviol : sumRemaining lots - ((pre.map (fun x => x.quantity)).sum) < s.quantity) :
    (processSells (pre ++ s :: suf) lots [] []).2.2 ≠ [] := by
  induction pre generalizing lots with
  | nil =>
    simp only [List.nil_append]
    rw [processSells_warns_split]
    have hm := processSell_matched s s.quantity lots
    have hsum := processSell_sum s s.quantity lots hl
    have hfin : 0 ≤ sumRemaining (processSell s s.quantity lots []).2.1 :=
      sumRemaining_nonneg _ (processSell_nonneg s s.quantity lots [] hl)
    simp only [List.map_nil, List.sum_nil, sub_zero] at hviol
    have hpos : (processSell s s.quantity lots []).1 > 0 := by linarith
    rw [if_pos hpos, List.singleton_append]
    exact List.cons_ne_nil _ _
  | cons p pre2 ih =>
    simp only [List.cons_append]
    rw [processSells_warns_split]
    have hps : p.quantity ≤ sumRemaining lots := by
      have h := hpre [] p pre2 rfl
      simpa using h
    have hppos : 0 < p.quantity := hq p (List.mem_cons_self _ _)
    have hlz : (processSell p p.quantity lots []).1 = 0 :=
      processSell_leftover_zero p p.quantity lots hppos.le hl hps
    have hsum2 : sumRemaining (processSell p p.quantity lots []).2.1
        = sumRemaining lots - p.quantity := by
      rw [processSell_sum p p.quantity lots hl, hlz]
      ring
    rw [if_neg (by rw [hlz]; exact lt_irrefl 0)]
    simp only [List.nil_append]
    apply ih (processSell p p.quantity lots []).2.1
      (processSell_nonneg p p.quantity lots [] hl)
      (fun t ht => hq t (List.mem_cons_of_mem _ ht))
    · intro p1 t p2 hdec
      have h := hpre (p :: p1) t p2 (by rw [hdec, List.cons_append])
      rw [hsum2]
      simp only [List.map_cons, List.sum_cons] at h
      linarith
    · rw [hsum2]
      simp only [List.map_cons, List.sum_cons] at hviol
      linarith

/-- A short attempt has a first violating sell; the sells before it all
fit. -/
theorem short_first_violation (trades : List TradeExecution) (hsh : ShortAttempt trades) :
    ∃ pre s suf, sellsOf trades = pre ++ s :: suf ∧
      (∀ p1 t p2, pre = p1 ++ t :: p2 →
        t.quantity ≤ sumRemaining (initialLots trades)
          - ((p1.map (fun x => x.quantity)).sum)) ∧
      sumRemaining (initialLots trades) - ((pre.map (fun x => x.quantity)).sum)
        < s.quantity := by
  classical
  obtain ⟨i, hi⟩ := hsh
  have hP : ∃ n, ∃ hn : n < (sellsOf trades).length,
      sellAvailable trades n < ((sellsOf trades).get ⟨n, hn⟩).quantity := ⟨i, i.isLt, by
        rw [List.get_eq_getElem] at hi ⊢
        exact hi⟩
  obtain ⟨hjlen, hjviol⟩ := Nat.find_spec hP
  refine ⟨(sellsOf trades).take (Nat.find hP),
    (sellsOf trades).get ⟨Nat.find hP, hjlen⟩,
    (sellsOf trades).drop (Nat.find hP + 1), ?_, ?_, ?_⟩
  · rw [List.get_eq_getElem, ← List.drop_eq_getElem_cons hjlen,
      List.take_append_drop]
  · intro p1 t p2 hdec
    have htlen : ((sellsOf trades).take (Nat.find hP)).length = Nat.find hP := by
      rw [List.length_take]
      omega
    have hlen1 : p1.length < Nat.find hP := by
      have h2 : ((sellsOf trades).take (Nat.find hP)).length
          = p1.length + (p2.length + 1) := by
        rw [hdec, List.length_append, List.length_cons]
      omega
    have hplen : p1.length < (sellsOf trades).length := by omega
    have hnv := Nat.find_min hP hlen1
    push_neg at hnv
    have hle := hnv hplen
    have hget : (sellsOf trades).get ⟨p1.length, hplen⟩ = t := by
      rw [List.get_eq_getElem]
      have h3 : ((sellsOf trades).take (Nat.find hP)).get ⟨p1.length, by omega⟩ = t := by
        rw [List.get_eq_getElem]
        simp only [hdec]
        rw [List.getElem_append_right (le_refl p1.length)]
        simp
      rw [List.get_eq_getElem] at h3
      rw [← h3, List.getElem_take]
    have htake1 : (sellsOf trades).take p1.length = p1 := by
      have h4 : ((sellsOf trades).take (Nat.find hP)).take p1.length = p1 := by
        rw [hdec]
        exact List.take_left p1 (t :: p2)
      rw [List.take_take] at h4
      rwa [min_eq_left (le_of_lt hlen1)] at h4
    rw [hget] at hle
    unfold sellAvailable at hle
    rw [htake1] at hle
    rwa [sumRemaining_initialLots]
  · unfold sellAvailable at hjviol
    have htake2 : ((sellsOf trades).take (Nat.find hP)).map (fun x => x.quantity)
        = ((sellsOf trades).take (Nat.find hP)).map (fun x => x.quantity) := rfl
    rw [sumRemaining_initialLots]
    exact hjviol

/-- C3: on a short attempt calculateAssetPosition still returns a
position (no exception), emits at least one positive short-position
warning, leaves exactly the warned quantity unmatched (totalSold equals
matched quantity plus warned quantity), and clamps currentQuantity to
max 0 (totalBought - totalSold), never negative. -/
theorem claim3_short_position (trades : List TradeExecution)
    (hq : ∀ t ∈ trades, 0 < t.quantity) (hsh : ShortAttempt trades) :
    ∃ pos warns, calculateAssetPositionFull trades = some (pos, warns) ∧
      warns ≠ [] ∧ (∀ w ∈ warns, 0 < w) ∧
      pos.totalSold = (pos.realizedGains.map (fun g => g.quantity)).sum + warns.sum ∧
      pos.currentQuantity = max 0 (pos.totalBought - pos.totalSold) ∧
      0 ≤ pos.currentQuantity := by
  cases hs : List.insertionSort dateLe trades with
  | nil =>
    exfalso
    obtain ⟨i, _⟩ := hsh
    have : sellsOf trades = [] := by
      unfold sellsOf
      rw [hs]
      rfl
    rw [this] at i
    exact absurd i.isLt (by simp)
  | cons f rest =>
    obtain ⟨pos, warns, heq, hgains, hwarns, hrem, hbought, hsold, hcur, htot⟩ :=
      calculateAssetPositionFull_spec trades f rest hs
    have hsells_pos : ∀ s ∈ sellsOf trades, 0 < s.quantity := fun s hsm =>
      hq s ((List.perm_insertionSort dateLe trades).mem_iff.mp (List.mem_of_mem_filter hsm))
    have hlots0 : ∀ lot ∈ initialLots trades, 0 ≤ lot.remainingQuantity :=
      initialLots_nonneg trades (fun t ht => (hq t ht).le)
    refine ⟨pos, warns, heq, ?_, ?_, ?_, ?_, ?_⟩
    · obtain ⟨pre, s, suf, hdec, hpre, hviol⟩ := short_first_violation trades hsh
      rw [hwarns, hdec]
      exact processSells_short_warns pre s suf (initialLots trades) hlots0
        (fun t ht => hsells_pos t (hdec ▸ List.mem_append_left _ ht))
        (hsells_pos s (hdec ▸ List.mem_append_right _ (List.mem_cons_self _ _)))
        hpre hviol
    · rw [hwarns]
      exact processSells_warns_pos _ _
    · rw [hsold, hgains, hwarns]
      exact processSells_sold_split _ _ (fun s hsm => (hsells_pos s hsm).le)
    · rw [hcur, jsMax_eq_max]
    · rw [hcur, jsMax_eq_max]
      exact le_max_left 0 _

/-- Closed check for C3: BUY 50 then SELL 75 yields a warning and a
clamped zero quantity. -/
theorem claim3_witness :
    ∃ pos warns, calculateAssetPositionFull sampleShortTrades = some (pos, warns) ∧
      warns ≠ [] ∧ (∀ w ∈ warns, 0 < w) ∧
      pos.totalSold = (pos.realizedGains.map (fun g => g.quantity)).sum + warns.sum ∧
      pos.currentQuantity = max 0 (pos.totalBought - pos.totalSold) ∧
      0 ≤ pos.currentQuantity :=
  claim3_short_position sampleShortTrades
    (of_decide_eq_true (by with_unfolding_all rfl))
    (of_decide_eq_true (by with_unfolding_all rfl))

/-- Closed check for C1 on the repository test scenario. -/
theorem claim1_witness :
    (ConsumedFrom (initialLots sampleTrades) (lotsAfter [] (initialLots sampleTrades)) ∧
     ConsumedFrom (lotsAfter [] (initialLots sampleTrades))
       (lotsAfter ([] ++ sellsOf sampleTrades) (initialLots sampleTrades))) ∧
    (∀ lot ∈ lotsAfter [] (initialLots sampleTrades), 0 ≤ lot.remainingQuantity) := by
  constructor
  · exact (claim1_fifo_lot_consumption sampleTrades).2.1 [] (sellsOf sampleTrades)
      (List.nil_append _).symm
  · exact (claim1_fifo_lot_consumption sampleTrades).2.2.1
      (of_decide_eq_true (by with_unfolding_all rfl)) [] (sellsOf sampleTrades)
      (List.nil_append _).symm

/-! ## C9: permutation invariance -/

/-- C9: for distinct-dated trades, calculateAssetPosition is insensitive
to the input order: permuted inputs with pairwise distinct trade dates
yield identical results (the stable date sort then produces the same
sorted list, and the rest of the computation is a pure function of it). -/
theorem claim9_permutation_invariance (t1 t2 : List TradeExecution)
    (hperm : t1.Perm t2)
    (hdates : t1.Pairwise (fun a b => a.tradeDate ≠ b.tradeDate)) :
    calculateAssetPositionFull t1 = calculateAssetPositionFull t2 := by
  have hp1 : (List.insertionSort dateLe t1).Perm t1 := List.perm_insertionSort dateLe t1
  have hp2 : (List.insertionSort dateLe t2).Perm t2 := List.perm_insertionSort dateLe t2
  have hp : (List.insertionSort dateLe t1).Perm (List.insertionSort dateLe t2) :=
    (hp1.trans hperm).trans hp2.symm
  have hsym : ∀ {x y : TradeExecution}, x.tradeDate ≠ y.tradeDate →
      y.tradeDate ≠ x.tradeDate := fun h => Ne.symm h
  have hd1 : (List.insertionSort dateLe t1).Pairwise
      (fun a b => a.tradeDate ≠ b.tradeDate) := (hp1.pairwise_iff hsym).mpr hdates
  have hd2 : (List.insertionSort dateLe t2).Pairwise
      (fun a b => a.tradeDate ≠ b.tradeDate) :=
    (hp2.pairwise_iff hsym).mpr ((hperm.pairwise_iff hsym).mp hdates)
  haveI : IsAntisymm TradeExecution
      (fun a b => a.tradeDate < b.tradeDate ∨ a = b) := ⟨by
    intro a b hab hba
    rcases hab with h1 | h1
    · rcases hba with h2 | h2
      · omega
      · exact h2.symm
    · exact h1⟩
  have hr1 : List.Sorted (fun a b => a.tradeDate < b.tradeDate ∨ a = b)
      (List.insertionSort dateLe t1) :=
    ((List.sorted_insertionSort dateLe t1).and hd1).imp
      (fun h => Or.inl (lt_of_le_of_ne h.1 h.2))
  have hr2 : List.Sorted (fun a b => a.tradeDate < b.tradeDate ∨ a = b)
      (List.insertionSort dateLe t2) :=
    ((List.sorted_insertionSort dateLe t2).and hd2).imp
      (fun h => Or.inl (lt_of_le_of_ne h.1 h.2))
  have hsort : List.insertionSort dateLe t1 = List.insertionSort dateLe t2 :=
    List.eq_of_perm_of_sorted hp hr1 hr2
  have hemp : t1.isEmpty = t2.isEmpty := by
    cases h1 : t1 with
    | nil =>
      have h2 : t2 = [] := (h1 ▸ hperm).symm.eq_nil
      rw [h2]
    | cons a l =>
      cases h2 : t2 with
      | nil => exact absurd ((h2 ▸ hperm).eq_nil) (by rw [h1]; simp)
      | cons b m => rfl
  unfold calculateAssetPositionFull
  rw [hsort, hemp]

set_option maxRecDepth 8000 in
/-- Closed check for C9 on two input orders of the test scenario. -/
theorem claim9_witness :
    calculateAssetPositionFull sampleTrades
      = calculateAssetPositionFull sampleTradesPermuted :=
  claim9_permutation_invariance sampleTrades sampleTradesPermuted
    (by decide) (by decide)

/-! ## C8 and C10: aggregator enrichment -/

theorem enrichPosition_toAssetPosition (m : List (String × PriceData))
    (position : AssetPosition) :
    (enrichPosition m position).toAssetPosition = position := rfl

theorem enrichPosition_priceData (m : List (String × PriceData))
    (position : AssetPosition) :
    (enrichPosition m position).priceData
      = pmGet m (position.isin ++ ":" ++ currencyKey position.currency) := rfl

theorem enrichPosition_currentMarketValue (m : List (String × PriceData))
    (position : AssetPosition) :
    (enrichPosition m position).currentMarketValue
      = position.currentQuantity
        * (((enrichPosition m position).priceData.map (fun d => d.price)).getD 0) := rfl

theorem enrichPosition_unrealizedGain (m : List (String × PriceData))
    (position : AssetPosition) :
    (enrichPosition m position).unrealizedGain
      = (enrichPosition m position).currentMarketValue - position.totalCostBasis := rfl

theorem enrichPosition_priceError (m : List (String × PriceData))
    (position : AssetPosition) :
    (enrichPosition m position).priceError
      = (if (enrichPosition m position).priceData.isSome then none
          else some "Price data not available") := rfl

theorem enrichPosition_dailyChange (m : List (String × PriceData))
    (position : AssetPosition) :
    (enrichPosition m position).dailyChange
      = (match (enrichPosition m position).priceData with
          | some pd =>
            match pd.change with
            | some c =>
              if c ≠ 0 ∧ position.currentQuantity ≠ 0 then some (c * position.currentQuantity)
              else none
            | none => none
          | none => none) := rfl

/-- Membership in getEnrichedPositions comes from enriching some
underlying asset position. -/
theorem getEnrichedPositions_mem
    (svcEnrich : List PortfolioPosition → List SvcEnrichedPosition)
    (trades : List TradeExecution) (p : EnrichedPosition)
    (hp : p ∈ getEnrichedPositions svcEnrich trades) :
    ∃ m position, position ∈ calculatePortfolioPositions trades ∧
      p = enrichPosition m position := by
  simp only [getEnrichedPositions] at hp
  by_cases he : (calculatePortfolioPositions trades).isEmpty = true
  · rw [if_pos he] at hp
    cases hp
  · rw [if_neg he] at hp
    obtain ⟨position, hmem, hpe⟩ := List.mem_map.mp hp
    exact ⟨_, position, hmem, hpe.symm⟩

/-- C8: a position whose price is unresolved gets currentMarketValue 0,
a non-empty priceError message, and unrealizedGain still computed as
currentMarketValue - totalCostBasis, i.e. -totalCostBasis. -/
theorem claim8_unpriced_position
    (svcEnrich : List PortfolioPosition → List SvcEnrichedPosition)
    (trades : List TradeExecution) :
    ∀ p ∈ getEnrichedPositions svcEnrich trades, p.priceData = none →
      p.currentMarketValue = 0 ∧
      p.priceError = some "Price data not available" ∧
      (∃ msg, p.priceError = some msg ∧ msg ≠ "") ∧
      p.unrealizedGain = p.currentMarketValue - p.totalCostBasis ∧
      p.unrealizedGain = -p.totalCostBasis := by
  intro p hp hnone
  obtain ⟨m, position, hmem, rfl⟩ := getEnrichedPositions_mem svcEnrich trades p hp
  have hmv : (enrichPosition m position).currentMarketValue = 0 := by
    rw [enrichPosition_currentMarketValue, hnone]
    simp
  have htcb : (enrichPosition m position).totalCostBasis = position.totalCostBasis := rfl
  have hug := enrichPosition_unrealizedGain m position
  refine ⟨hmv, ?_, ?_, ?_, ?_⟩
  · rw [enrichPosition_priceError, hnone]
    simp
  · refine ⟨"Price data not available", ?_, by simp⟩
    rw [enrichPosition_priceError, hnone]
    simp
  · rw [hug, htcb]
  · rw [hug, hmv, htcb]
    ring

/-- C10: dailyChange is set only when the resolved price has a nonzero
change and the position has a nonzero quantity (a change of exactly 0,
or a zero quantity, yields no dailyChange); the portfolio summary sums
absent dailyChange values as 0. -/
theorem claim10_daily_change
    (svcEnrich : List PortfolioPosition → List SvcEnrichedPosition)
    (now : ℕ) (trades : List TradeExecution) :
    (∀ p ∈ getEnrichedPositions svcEnrich trades,
      (∀ x, p.dailyChange = some x →
        ∃ pd c, p.priceData = some pd ∧ pd.change = some c ∧ c ≠ 0 ∧
          p.currentQuantity ≠ 0 ∧ x = c * p.currentQuantity) ∧
      (∀ pd, p.priceData = some pd → pd.change = some 0 → p.dailyChange = none) ∧
      (p.currentQuantity = 0 → p.dailyChange = none)) ∧
    (getPortfolioSummary svcEnrich now trades).totalDailyChange
      = ((getEnrichedPositions svcEnrich trades).map
          (fun p => p.dailyChange.getD 0)).sum := by
  constructor
  · intro p hp
    obtain ⟨m, position, hmem, rfl⟩ := getEnrichedPositions_mem svcEnrich trades p hp
    have hq : (enrichPosition m position).currentQuantity = position.currentQuantity := rfl
    have hdc := enrichPosition_dailyChange m position
    refine ⟨?_, ?_, ?_⟩
    · intro x hx
      rw [hdc] at hx
      cases hm : (enrichPosition m position).priceData with
      | none =>
        rw [hm] at hx
        cases hx
      | some pd =>
        rw [hm] at hx
        dsimp only at hx
        cases hc : pd.change with
        | none =>
          rw [hc] at hx
          cases hx
        | some c =>
          rw [hc] at hx
          dsimp only at hx
          by_cases hcq : c ≠ 0 ∧ position.currentQuantity ≠ 0
          · rw [if_pos hcq] at hx
            rw [Option.some.injEq] at hx
            exact ⟨pd, c, rfl, hc, hcq.1, by rw [hq]; exact hcq.2, by rw [hq, ← hx]⟩
          · rw [if_neg hcq] at hx
            cases hx
    · intro pd hpd hc0
      rw [hdc, hpd]
      dsimp only
      rw [hc0]
      simp
    · intro hq0
      rw [hq] at hq0
      rw [hdc]
      cases hm : (enrichPosition m position).priceData with
      | none => rfl
      | some pd =>
        dsimp only
        cases hc : pd.change with
        | none => rfl
        | some c =>
          dsimp only
          rw [if_neg (by simp [hq0])]
  · rfl

/-- Closed check for C8: a position whose price resolves to nothing. -/
theorem claim8_witness :
    ∃ p ∈ getEnrichedPositions svcEnrichNone [sampleSmallBuy],
      p.priceData = none ∧ p.currentMarketValue = 0 ∧
      p.priceError = some "Price data not available" ∧
      p.unrealizedGain = -p.totalCostBasis := by
  have hlen : 0 < (getEnrichedPositions svcEnrichNone [sampleSmallBuy]).length := by
    rw [show (getEnrichedPositions svcEnrichNone [sampleSmallBuy]).length = 1 from by
      with_unfolding_all rfl]
    omega
  refine ⟨(getEnrichedPositions svcEnrichNone [sampleSmallBuy]).get ⟨0, hlen⟩,
    List.get_mem _ _ _, ?_⟩
  have hnone : ((getEnrichedPositions svcEnrichNone [sampleSmallBuy]).get
      ⟨0, hlen⟩).priceData = none := by
    with_unfolding_all rfl
  obtain ⟨h1, h2, _, _, h5⟩ := claim8_unpriced_position svcEnrichNone [sampleSmallBuy] _
    (List.get_mem _ _ _) hnone
  exact ⟨hnone, h1, h2, h5⟩

/-- Closed check for C10: a resolved price with change exactly 0 yields
no dailyChange. -/
theorem claim10_witness :
    ∃ p ∈ getEnrichedPositions svcEnrichZero [sampleSmallBuy],
      p.priceData = some zeroChangeData ∧ p.dailyChange = none := by
  have hlen : 0 < (getEnrichedPositions svcEnrichZero [sampleSmallBuy]).length := by
    rw [show (getEnrichedPositions svcEnrichZero [sampleSmallBuy]).length = 1 from by
      with_unfolding_all rfl]
    omega
  refine ⟨(getEnrichedPositions svcEnrichZero [sampleSmallBuy]).get ⟨0, hlen⟩,
    List.get_mem _ _ _, ?_, ?_⟩
  · with_unfolding_all rfl
  · exact ((claim10_daily_change svcEnrichZero 0 [sampleSmallBuy]).1 _
      (List.get_mem _ _ _)).2.1 zeroChangeData (by with_unfolding_all rfl)
      (by with_unfolding_all rfl)

/-! ## Lemmas about the price cache and service -/

theorem mapGet_map_replace (m : PriceCacheMap) (k : String) (v : CacheEntry)
    (h : m.any (fun p => p.1 == k) = true) :
    mapGet (m.map (fun p => if p.1 == k then (k, v) else p)) k = some v := by
  induction m with
  | nil => simp at h
  | cons p rest ih =>
    rw [List.map_cons]
    by_cases hp : (p.1 == k) = true
    · rw [if_pos hp]
      unfold mapGet
      rw [List.find?_cons_of_pos _ (by simp)]
      rfl
    · rw [if_neg hp]
      unfold mapGet at ih ⊢
      rw [List.find?_cons_of_neg _ (by simpa using hp)]
      apply ih
      simp only [List.any_cons, Bool.or_eq_true] at h
      rcases h with h | h
      · exact absurd h hp
      · exact h

theorem mapGet_append_absent (m : PriceCacheMap) (k : String) (v : CacheEntry)
    (h : m.any (fun p => p.1 == k) = false) :
    mapGet (m ++ [(k, v)]) k = some v := by
  unfold mapGet
  have hnone : m.find? (fun p => p.1 == k) = none := by
    rw [List.find?_eq_none]
    intro x hx
    exact List.any_eq_false.mp h x hx
  rw [List.find?_append, hnone, Option.none_or,
    @List.find?_cons_of_pos _ (fun q => q.1 == k) (k, v) [] (by simp)]
  rfl

/-- Map.set then Map.get at the same key yields the stored entry. -/
theorem mapGet_mapSet_self (m : PriceCacheMap) (k : String) (v : CacheEntry) :
    mapGet (mapSet m k v) k = some v := by
  unfold mapSet
  by_cases h : m.any (fun p => p.1 == k) = true
  · rw [if_pos h]
    exact mapGet_map_replace m k v h
  · rw [if_neg h]
    refine mapGet_append_absent m k v ?_
    cases hb : m.any (fun p => p.1 == k) with
    | false => rfl
    | true => exact absurd hb h

/-- Map.set leaves other keys untouched. -/
theorem mapGet_mapSet_ne (m : PriceCacheMap) (k k2 : String) (v : CacheEntry)
    (h : k ≠ k2) : mapGet (mapSet m k v) k2 = mapGet m k2 := by
  unfold mapSet
  by_cases ha : m.any (fun p => p.1 == k) = true
  · rw [if_pos ha]
    unfold mapGet
    clear ha
    induction m with
    | nil => rfl
    | cons p rest ih =>
      rw [List.map_cons]
      by_cases hp : (p.1 == k) = true
      · rw [if_pos hp]
        have hpk : p.1 = k := by simpa using hp
        rw [@List.find?_cons_of_neg _ (fun q => q.1 == k2) (k, v)
            (List.map (fun p => if (p.1 == k) = true then (k, v) else p) rest)
            (show ¬(k == k2) = true by simpa using h),
          @List.find?_cons_of_neg _ (fun q => q.1 == k2) p rest
            (show ¬(p.1 == k2) = true by rw [hpk]; simpa using h)]
        exact ih
      · rw [if_neg hp]
        by_cases hp2 : (p.1 == k2) = true
        · rw [@List.find?_cons_of_pos _ (fun q => q.1 == k2) p
              (List.map (fun p => if (p.1 == k) = true then (k, v) else p) rest) hp2,
            @List.find?_cons_of_pos _ (fun q => q.1 == k2) p rest hp2]
        · rw [@List.find?_cons_of_neg _ (fun q => q.1 == k2) p
              (List.map (fun p => if (p.1 == k) = true then (k, v) else p) rest) hp2,
            @List.find?_cons_of_neg _ (fun q => q.1 == k2) p rest hp2]
          exact ih
  · rw [if_neg ha]
    unfold mapGet
    rw [List.find?_append]
    cases hf : m.find? (fun p => p.1 == k2) with
    | none =>
      rw [Option.none_or,
        @List.find?_cons_of_neg _ (fun q => q.1 == k2) (k, v) [] (by simpa using h)]
      rfl
    | some e => rfl

/-- Map.delete then Map.get at the same key yields nothing. -/
theorem mapGet_mapDelete_self (m : PriceCacheMap) (k : String) :
    mapGet (mapDelete m k) k = none := by
  unfold mapGet mapDelete
  have hf : List.find? (fun p => p.1 == k) (List.filter (fun p => p.1 != k) m) = none := by
    rw [List.find?_eq_none]
    intro x hx
    have hne := (List.mem_filter.mp hx).2
    simpa using hne
  rw [hf]
  rfl

/-- A stored entry is served while now is at most its expiry. -/
theorem cacheGet_cacheSet_self (m : PriceCacheMap) (t0 T now : ℕ) (i : String)
    (ty : IdentifierType) (cu : Currency) (d : PriceData) (hle : now ≤ t0 + T) :
    cacheGet (cacheSet m t0 i ty cu d (some T)) now i ty cu
      = (some d, cacheSet m t0 i ty cu d (some T)) := by
  simp only [cacheGet, cacheSet, Option.getD_some]
  rw [mapGet_mapSet_self]
  dsimp only
  rw [if_neg (by omega)]

/-- A stored entry is evicted and treated as absent strictly after its
expiry. -/
theorem cacheGet_cacheSet_expired (m : PriceCacheMap) (t0 T now : ℕ) (i : String)
    (ty : IdentifierType) (cu : Currency) (d : PriceData) (hgt : t0 + T < now) :
    cacheGet (cacheSet m t0 i ty cu d (some T)) now i ty cu
      = (none, mapDelete (cacheSet m t0 i ty cu d (some T)) (generateKey i ty cu)) := by
  simp only [cacheGet, cacheSet, Option.getD_some]
  rw [mapGet_mapSet_self]
  dsimp only
  rw [if_pos (by omega)]

/-- After a miss, the key is absent from the returned cache. -/
theorem cacheGet_miss_absent (m : PriceCacheMap) (now : ℕ) (i : String)
    (ty : IdentifierType) (cu : Currency)
    (h : (cacheGet m now i ty cu).1 = none) :
    mapGet (cacheGet m now i ty cu).2 (generateKey i ty cu) = none := by
  simp only [cacheGet] at h ⊢
  cases hm : mapGet m (generateKey i ty cu) with
  | none => exact hm
  | some entry =>
    rw [hm] at h
    dsimp only at h ⊢
    by_cases hexp : now > entry.expiresAt
    · rw [if_pos hexp]
      exact mapGet_mapDelete_self _ _
    · rw [if_neg hexp] at h
      simp at h

theorem tryProvider_calls_ne_nil (p : Provider) (req : PriceRequest) :
    (tryProvider p req).2 ≠ [] := by
  unfold tryProvider
  by_cases hh : p.healthy = true
  · rw [if_pos hh]; simp
  · rw [if_neg hh]; simp

/-- The provider loop returns the first healthy successful provider's
response, having called exactly the providers before it plus that one,
and no provider after it. -/
theorem runProviders_spec (req : PriceRequest) (pre : List Provider) :
    ∀ p post, (∀ q ∈ pre, ¬ providerOk req q) → providerOk req p →
      runProviders req (pre ++ p :: post)
        = (some (p.priceOf req),
           pre.flatMap (fun q => (tryProvider q req).2)
             ++ [ProviderCall.health p.name, ProviderCall.price p.name req]) := by
  induction pre with
  | nil =>
    intro p post _ hok
    simp only [List.nil_append, runProviders]
    have htp : tryProvider p req
        = (p.priceOf req, [ProviderCall.health p.name, ProviderCall.price p.name req]) := by
      unfold tryProvider
      rw [if_pos hok.1]
    rw [htp]
    dsimp only
    rw [if_pos (by rw [hok.2.1, hok.2.2]; rfl)]
    simp
  | cons q pre2 ih =>
    intro p post hpre hok
    have hq := hpre q (List.mem_cons_self _ _)
    simp only [List.cons_append, runProviders]
    have hfail : ((tryProvider q req).1.success && (tryProvider q req).1.data.isSome) ≠ true := by
      unfold tryProvider
      by_cases hh : q.healthy = true
      · rw [if_pos hh]
        intro hcontra
        rw [Bool.and_eq_true] at hcontra
        exact hq ⟨hh, hcontra.1, hcontra.2⟩
      · rw [if_neg hh]
        simp
    rw [if_neg hfail]
    simp only [List.append_eq]
    rw [ih p post (fun x hx => hpre x (List.mem_cons_of_mem _ hx)) hok]
    rw [List.flatMap_cons, List.append_assoc]

/-- If no provider is healthy and successful, the loop yields nothing. -/
theorem runProviders_none (req : PriceRequest) (ps : List Provider)
    (h : ∀ q ∈ ps, ¬ providerOk req q) : (runProviders req ps).1 = none := by
  induction ps with
  | nil => rfl
  | cons q rest ih =>
    have hq := h q (List.mem_cons_self _ _)
    simp only [runProviders]
    have hfail : ((tryProvider q req).1.success && (tryProvider q req).1.data.isSome) ≠ true := by
      unfold tryProvider
      by_cases hh : q.healthy = true
      · rw [if_pos hh]
        intro hcontra
        rw [Bool.and_eq_true] at hcontra
        exact hq ⟨hh, hcontra.1, hcontra.2⟩
      · rw [if_neg hh]
        simp
    rw [if_neg hfail]
    exact ih (fun x hx => h x (List.mem_cons_of_mem _ hx))

theorem runProviders_calls_ne_nil (req : PriceRequest) (p : Provider) (ps : List Provider) :
    (runProviders req (p :: ps)).2 ≠ [] := by
  simp only [runProviders]
  by_cases hc : ((tryProvider p req).1.success && (tryProvider p req).1.data.isSome) = true
  · rw [if_pos hc]
    exact tryProvider_calls_ne_nil p req
  · rw [if_neg hc]
    intro hcontra
    rcases List.append_eq_nil.mp hcontra with ⟨h1, _⟩
    exact tryProvider_calls_ne_nil p req h1

/-- On a cache miss the call log of getCurrentPrice is that of the
provider loop. -/
theorem svcGetCurrentPrice_miss_calls (st : ServiceState) (now : ℕ) (req : PriceRequest)
    (h : (cacheGet st.cache now req.identifier req.identifierType
      (req.currency.getD Currency.USD)).1 = none) :
    (svcGetCurrentPrice st now req).2.2
      = (runProviders { req with currency := some (req.currency.getD Currency.USD) }
          st.providers).2 := by
  simp only [svcGetCurrentPrice]
  rw [h]
  cases hr : (runProviders { req with currency := some (req.currency.getD Currency.USD) }
      st.providers).1 with
  | none => rfl
  | some res => rfl

/-- Rewriting an omitted TTL to the explicit default (ttl || this.defaultTTL). -/
theorem cacheSet_none (m : PriceCacheMap) (now : ℕ) (i : String)
    (ty : IdentifierType) (cu : Currency) (d : PriceData) :
    cacheSet m now i ty cu d none = cacheSet m now i ty cu d (some defaultTTL) := rfl

/-- Claim C4 (amended): a cache entry stored at time t0 with TTL T is
served for any lookup with now ≤ t0 + T (in particular throughout
[t0, t0+T)), while a lookup strictly after t0 + T treats the entry as
absent, evicts it from the cache, and makes getCurrentPrice run the
provider loop (so a fresh provider call is made whenever a provider is
configured).  The original boundary of the claim — absent at or after
t0 + T — does not hold: the source expires entries only when
now > expiresAt, so a lookup at exactly t0 + T is still a cache hit. -/
theorem claim4_cache_ttl (m : PriceCacheMap) (t0 T now : ℕ) (i : String)
    (ty : IdentifierType) (cu : Currency) (d : PriceData) (ps : List Provider) :
    (now ≤ t0 + T →
      cacheGet (cacheSet m t0 i ty cu d (some T)) now i ty cu
        = (some d, cacheSet m t0 i ty cu d (some T)))
    ∧ (t0 + T < now →
      (cacheGet (cacheSet m t0 i ty cu d (some T)) now i ty cu).1 = none
      ∧ mapGet (cacheGet (cacheSet m t0 i ty cu d (some T)) now i ty cu).2
          (generateKey i ty cu) = none
      ∧ (svcGetCurrentPrice
            { providers := ps, cache := cacheSet m t0 i ty cu d (some T) } now
            { identifier := i, identifierType := ty, currency := some cu }).2.2
          = (runProviders
              { identifier := i, identifierType := ty, currency := some cu } ps).2
      ∧ (ps ≠ [] →
          (svcGetCurrentPrice
            { providers := ps, cache := cacheSet m t0 i ty cu d (some T) } now
            { identifier := i, identifierType := ty, currency := some cu }).2.2 ≠ [])) := by
  constructor
  · intro hle
    exact cacheGet_cacheSet_self m t0 T now i ty cu d hle
  · intro hgt
    have h1 : (cacheGet (cacheSet m t0 i ty cu d (some T)) now i ty cu).1 = none := by
      rw [cacheGet_cacheSet_expired m t0 T now i ty cu d hgt]
    refine ⟨h1, cacheGet_miss_absent _ now i ty cu h1, ?_, ?_⟩
    · exact svcGetCurrentPrice_miss_calls
        { providers := ps, cache := cacheSet m t0 i ty cu d (some T) } now
        { identifier := i, identifierType := ty, currency := some cu } h1
    · intro hne
      rw [svcGetCurrentPrice_miss_calls
        { providers := ps, cache := cacheSet m t0 i ty cu d (some T) } now
        { identifier := i, identifierType := ty, currency := some cu } h1]
      cases ps with
      | nil => exact absurd rfl hne
      | cons p rest => exact runProviders_calls_ne_nil _ p rest

/-- C4 witness: the amended theorem at concrete inputs — an entry stored
at 0 with the default TTL is served at 5, and a lookup at
defaultTTL + 1 finds nothing. -/
theorem claim4_witness :
    cacheGet (cacheSet [] 0 "AAPL" IdentifierType.SYMBOL Currency.USD
        samplePriceData (some defaultTTL)) 5 "AAPL" IdentifierType.SYMBOL Currency.USD
      = (some samplePriceData,
         cacheSet [] 0 "AAPL" IdentifierType.SYMBOL Currency.USD
           samplePriceData (some defaultTTL))
    ∧ (cacheGet (cacheSet [] 0 "AAPL" IdentifierType.SYMBOL Currency.USD
        samplePriceData (some defaultTTL)) (defaultTTL + 1) "AAPL"
        IdentifierType.SYMBOL Currency.USD).1 = none :=
  ⟨(claim4_cache_ttl [] 0 defaultTTL 5 "AAPL" IdentifierType.SYMBOL Currency.USD
      samplePriceData []).1 (by decide),
   ((claim4_cache_ttl [] 0 defaultTTL (defaultTTL + 1) "AAPL" IdentifierType.SYMBOL
      Currency.USD samplePriceData []).2 (by decide)).1⟩

/-- C4 counterexample to the original boundary: at exactly t0 + T the
entry is still served from the cache (the source checks
now > expiresAt strictly), and getCurrentPrice makes no provider call
at that instant even with providers configured. -/
theorem claim4_boundary_counterexample :
    (cacheGet (cacheSet [] 0 "AAPL" IdentifierType.SYMBOL Currency.USD
        samplePriceData (some defaultTTL)) defaultTTL "AAPL" IdentifierType.SYMBOL
        Currency.USD).1 = some samplePriceData
    ∧ (svcGetCurrentPrice
        { providers := [failProvider, okProvider],
          cache := cacheSet [] 0 "AAPL" IdentifierType.SYMBOL Currency.USD
            samplePriceData (some defaultTTL) } defaultTTL sampleRequest).2.2 = [] := by
  constructor
  · with_unfolding_all rfl
  · with_unfolding_all rfl

/-- A non-expired cache hit short-circuits getCurrentPrice: a success
response with the cached datum, no provider call, state updated only by
the lookup itself. -/
theorem svcGetCurrentPrice_hit (st : ServiceState) (now : ℕ) (req : PriceRequest)
    (d0 : PriceData)
    (hhit : (cacheGet st.cache now req.identifier req.identifierType
        (req.currency.getD Currency.USD)).1 = some d0) :
    svcGetCurrentPrice st now req
      = ({ success := true, data := some d0, error := none, code := none },
         { st with cache := (cacheGet st.cache now req.identifier req.identifierType
             (req.currency.getD Currency.USD)).2 }, []) := by
  simp only [svcGetCurrentPrice]
  rw [hhit]

/-- The full effect of getCurrentPrice on a cache miss when the provider
list decomposes around a first healthy successful provider. -/
theorem svcGetCurrentPrice_miss_success (st : ServiceState) (now : ℕ)
    (req : PriceRequest) (pre : List Provider) (p : Provider) (post : List Provider)
    (d : PriceData)
    (hmiss : (cacheGet st.cache now req.identifier req.identifierType
        (req.currency.getD Currency.USD)).1 = none)
    (hsplit : st.providers = pre ++ p :: post)
    (hpre : ∀ q ∈ pre, ¬ providerOk
        { req with currency := some (req.currency.getD Currency.USD) } q)
    (hok : providerOk { req with currency := some (req.currency.getD Currency.USD) } p)
    (hd : (p.priceOf { req with currency := some (req.currency.getD Currency.USD) }).data
        = some d) :
    svcGetCurrentPrice st now req
      = (p.priceOf { req with currency := some (req.currency.getD Currency.USD) },
         { st with
             cache :=
               cacheSet
                 (cacheGet st.cache now req.identifier req.identifierType
                   (req.currency.getD Currency.USD)).2
                 now req.identifier req.identifierType (req.currency.getD Currency.USD)
                 d none },
         pre.flatMap (fun q => (tryProvider q
             { req with currency := some (req.currency.getD Currency.USD) }).2)
           ++ [ProviderCall.health p.name, ProviderCall.price p.name
               { req with currency := some (req.currency.getD Currency.USD) }]) := by
  have hrun := runProviders_spec
    { req with currency := some (req.currency.getD Currency.USD) } pre p post hpre hok
  simp only [svcGetCurrentPrice]
  rw [hmiss]
  dsimp only
  rw [hsplit, hrun]
  dsimp only
  rw [hd]

/-- Claim C5: a non-expired cache hit is returned as a success carrying
the cached datum with no provider invocation at all; after a
miss-then-success, the fetched datum is cached, so a second lookup of
the same key within the TTL window performs no provider calls and
returns the same datum — with the successful provider first in the
list, the two sequential calls make exactly one provider price lookup
in total. -/
theorem claim5_cache_hit_short_circuit (st st1 : ServiceState) (now now1 now2 : ℕ)
    (req : PriceRequest) (d0 d : PriceData) (p : Provider) (post : List Provider)
    (hhit : (cacheGet st.cache now req.identifier req.identifierType
        (req.currency.getD Currency.USD)).1 = some d0)
    (hmiss : (cacheGet st1.cache now1 req.identifier req.identifierType
        (req.currency.getD Currency.USD)).1 = none)
    (hprov : st1.providers = p :: post)
    (hok : providerOk { req with currency := some (req.currency.getD Currency.USD) } p)
    (hd : (p.priceOf { req with currency := some (req.currency.getD Currency.USD) }).data
        = some d)
    (hwin : now2 ≤ now1 + defaultTTL) :
    ((svcGetCurrentPrice st now req).1
        = { success := true, data := some d0, error := none, code := none }
      ∧ (svcGetCurrentPrice st now req).2.2 = [])
    ∧ (svcGetCurrentPrice (svcGetCurrentPrice st1 now1 req).2.1 now2 req).2.2 = []
    ∧ (svcGetCurrentPrice (svcGetCurrentPrice st1 now1 req).2.1 now2 req).1
        = { success := true, data := some d, error := none, code := none }
    ∧ countPriceCalls ((svcGetCurrentPrice st1 now1 req).2.2
        ++ (svcGetCurrentPrice (svcGetCurrentPrice st1 now1 req).2.1 now2 req).2.2) = 1 := by
  have hhitlem := svcGetCurrentPrice_hit st now req d0 hhit
  have hmain := svcGetCurrentPrice_miss_success st1 now1 req [] p post d hmiss
    (by rw [hprov]; rfl) (fun q hq => absurd hq (List.not_mem_nil q)) hok hd
  have hc2 : cacheGet (svcGetCurrentPrice st1 now1 req).2.1.cache now2
      req.identifier req.identifierType (req.currency.getD Currency.USD)
      = (some d, (svcGetCurrentPrice st1 now1 req).2.1.cache) := by
    rw [hmain]
    dsimp only
    rw [cacheSet_none]
    exact cacheGet_cacheSet_self _ now1 defaultTTL now2 _ _ _ d hwin
  have hhit2 : (cacheGet (svcGetCurrentPrice st1 now1 req).2.1.cache now2
      req.identifier req.identifierType (req.currency.getD Currency.USD)).1 = some d := by
    rw [hc2]
  have hsec := svcGetCurrentPrice_hit (svcGetCurrentPrice st1 now1 req).2.1 now2 req d hhit2
  refine ⟨⟨?_, ?_⟩, ?_, ?_, ?_⟩
  · rw [hhitlem]
  · rw [hhitlem]
  · rw [hsec]
  · rw [hsec]
  · rw [hsec, hmain]
    rfl

/-- The service state of the cache-hit scenario: a fresh quote stored at
time 0 under the SYMBOL:AAPL:USD key. -/
def cachedState : ServiceState :=
  { providers := [okProvider],
    cache := cacheSet [] 0 "AAPL" IdentifierType.SYMBOL Currency.USD samplePriceData none }

/-- C5 witness: the claim at concrete inputs — a hit at time 5 on the
pre-populated state, and a miss-then-hit pair at times 0 and 10 on a
fresh service with the single healthy provider. -/
theorem claim5_witness :
    ((svcGetCurrentPrice cachedState 5 sampleRequest).1
        = { success := true, data := some samplePriceData, error := none, code := none }
      ∧ (svcGetCurrentPrice cachedState 5 sampleRequest).2.2 = [])
    ∧ (svcGetCurrentPrice (svcGetCurrentPrice (mkService [okProvider]) 0 sampleRequest).2.1
        10 sampleRequest).2.2 = []
    ∧ (svcGetCurrentPrice (svcGetCurrentPrice (mkService [okProvider]) 0 sampleRequest).2.1
        10 sampleRequest).1
        = { success := true, data := some samplePriceData, error := none, code := none }
    ∧ countPriceCalls ((svcGetCurrentPrice (mkService [okProvider]) 0 sampleRequest).2.2
        ++ (svcGetCurrentPrice (svcGetCurrentPrice (mkService [okProvider]) 0 sampleRequest).2.1
          10 sampleRequest).2.2) = 1 :=
  claim5_cache_hit_short_circuit cachedState (mkService [okProvider]) 5 0 10
    sampleRequest samplePriceData samplePriceData okProvider []
    (by with_unfolding_all rfl) rfl rfl ⟨rfl, rfl, rfl⟩ rfl (by decide)

/-- The effect of getCurrentPrice on a cache miss when every provider
fails: a NOT_FOUND failure, and the state carries the post-lookup cache
unchanged. -/
theorem svcGetCurrentPrice_miss_failure (st : ServiceState) (now : ℕ)
    (req : PriceRequest)
    (hmiss : (cacheGet st.cache now req.identifier req.identifierType
        (req.currency.getD Currency.USD)).1 = none)
    (hfail : ∀ q ∈ st.providers, ¬ providerOk
        { req with currency := some (req.currency.getD Currency.USD) } q) :
    (svcGetCurrentPrice st now req).1
      = { success := false, data := none,
          error := some ("No provider could fetch price for " ++ req.identifier),
          code := some PriceErrorCode.NOT_FOUND }
    ∧ (svcGetCurrentPrice st now req).2.1
      = { st with cache := (cacheGet st.cache now req.identifier req.identifierType
          (req.currency.getD Currency.USD)).2 } := by
  have hnone := runProviders_none
    { req with currency := some (req.currency.getD Currency.USD) } st.providers hfail
  simp only [svcGetCurrentPrice]
  rw [hmiss]
  dsimp only
  rw [hnone]
  exact ⟨rfl, rfl⟩

/-- Claim C6: the service's provider list is sorted by ascending
priority at construction; on a cache miss, with the provider list split
as pre ++ p :: post where no provider of pre is healthy-and-successful
and p is, the response is exactly p's response, the call log is the
attempts on pre followed by p's health check and price lookup — so
nothing from post is attempted — and the fetched datum is written to
the cache under the request key with the fixed default TTL; if every
provider fails, the response is a NOT_FOUND failure and the request key
is not populated in the cache. -/
theorem claim6_provider_fallback (st : ServiceState) (now : ℕ) (req : PriceRequest)
    (hmiss : (cacheGet st.cache now req.identifier req.identifierType
        (req.currency.getD Currency.USD)).1 = none) :
    (∀ ps, (mkService ps).providers.Pairwise prioLe)
    ∧ (∀ pre p post (d : PriceData), st.providers = pre ++ p :: post →
        (∀ q ∈ pre, ¬ providerOk
          { req with currency := some (req.currency.getD Currency.USD) } q) →
        providerOk { req with currency := some (req.currency.getD Currency.USD) } p →
        (p.priceOf { req with currency := some (req.currency.getD Currency.USD) }).data
          = some d →
        (svcGetCurrentPrice st now req).1
            = p.priceOf { req with currency := some (req.currency.getD Currency.USD) }
        ∧ (svcGetCurrentPrice st now req).2.2
            = pre.flatMap (fun q => (tryProvider q
                { req with currency := some (req.currency.getD Currency.USD) }).2)
              ++ [ProviderCall.health p.name, ProviderCall.price p.name
                  { req with currency := some (req.currency.getD Currency.USD) }]
        ∧ mapGet (svcGetCurrentPrice st now req).2.1.cache
            (generateKey req.identifier req.identifierType (req.currency.getD Currency.USD))
            = some { data := d, timestamp := now, expiresAt := now + defaultTTL })
    ∧ ((∀ q ∈ st.providers, ¬ providerOk
          { req with currency := some (req.currency.getD Currency.USD) } q) →
        (svcGetCurrentPrice st now req).1
          = { success := false, data := none,
              error := some ("No provider could fetch price for " ++ req.identifier),
              code := some PriceErrorCode.NOT_FOUND }
        ∧ mapGet (svcGetCurrentPrice st now req).2.1.cache
            (generateKey req.identifier req.identifierType (req.currency.getD Currency.USD))
            = none) := by
  refine ⟨?_, ?_, ?_⟩
  · intro ps
    exact List.sorted_insertionSort prioLe ps
  · intro pre p post d hsplit hpre hok hd
    have hmain := svcGetCurrentPrice_miss_success st now req pre p post d hmiss hsplit hpre hok hd
    refine ⟨by rw [hmain], by rw [hmain], ?_⟩
    rw [hmain]
    dsimp only
    rw [cacheSet_none]
    exact mapGet_mapSet_self _ _ _
  · intro hfail
    have hm := svcGetCurrentPrice_miss_failure st now req hmiss hfail
    refine ⟨hm.1, ?_⟩
    rw [hm.2]
    dsimp only
    exact cacheGet_miss_absent st.cache now _ _ _ hmiss

/-- C6 witness: the claim at concrete inputs — providers registered as
[P2, P1] are sorted to [P1, P2]; a lookup tries P1 (which fails) then
P2 (which succeeds), answers with P2's datum, caches it with the
default TTL, and a service with only the failing P1 answers NOT_FOUND
and leaves the key absent. -/
theorem claim6_witness :
    (mkService [okProvider, failProvider]).providers.Pairwise prioLe
    ∧ (svcGetCurrentPrice (mkService [okProvider, failProvider]) 0 sampleRequest).1
        = okProvider.priceOf
            { sampleRequest with currency := some (sampleRequest.currency.getD Currency.USD) }
    ∧ (svcGetCurrentPrice (mkService [okProvider, failProvider]) 0 sampleRequest).2.2
        = [failProvider].flatMap (fun q => (tryProvider q
            { sampleRequest with currency := some (sampleRequest.currency.getD Currency.USD) }).2)
          ++ [ProviderCall.health okProvider.name, ProviderCall.price okProvider.name
              { sampleRequest with currency := some (sampleRequest.currency.getD Currency.USD) }]
    ∧ mapGet (svcGetCurrentPrice (mkService [okProvider, failProvider]) 0 sampleRequest).2.1.cache
        (generateKey sampleRequest.identifier sampleRequest.identifierType
          (sampleRequest.currency.getD Currency.USD))
        = some { data := samplePriceData, timestamp := 0, expiresAt := 0 + defaultTTL }
    ∧ (svcGetCurrentPrice (mkService [failProvider]) 0 sampleRequest).1
        = { success := false, data := none,
            error := some ("No provider could fetch price for " ++ sampleRequest.identifier),
            code := some PriceErrorCode.NOT_FOUND }
    ∧ mapGet (svcGetCurrentPrice (mkService [failProvider]) 0 sampleRequest).2.1.cache
        (generateKey sampleRequest.identifier sampleRequest.identifierType
          (sampleRequest.currency.getD Currency.USD)) = none := by
  have h6 := claim6_provider_fallback (mkService [okProvider, failProvider]) 0 sampleRequest rfl
  have hf := claim6_provider_fallback (mkService [failProvider]) 0 sampleRequest rfl
  have hsucc := h6.2.1 [failProvider] okProvider [] samplePriceData rfl
    (by decide) (by decide) rfl
  have hfailc := hf.2.2 (by decide)
  exact ⟨h6.1 [okProvider, failProvider], hsucc.1, hsucc.2.1, hsucc.2.2,
    hfailc.1, hfailc.2⟩

/-- A key present after Map.set was either present before or holds the
stored value. -/
theorem mapGet_mapSet_cases (m : PriceCacheMap) (k0 k : String) (v e : CacheEntry)
    (h : mapGet (mapSet m k0 v) k = some e) :
    mapGet m k = some e ∨ e = v := by
  by_cases hk : k0 = k
  · subst hk
    rw [mapGet_mapSet_self] at h
    exact Or.inr (Option.some.inj h).symm
  · rw [mapGet_mapSet_ne m k0 k v hk] at h
    exact Or.inl h

/-- An entry found after the batch loop's per-item cache writes was
either already present or was written with the default TTL stamp. -/
theorem mapGet_foldl_cacheSet (now : ℕ) (ds : List PriceData) (c : PriceCacheMap)
    (k : String) (e : CacheEntry)
    (h : mapGet (ds.foldl (fun c2 d => cacheSet c2 now d.identifier d.identifierType
        d.currency d none) c) k = some e) :
    mapGet c k = some e ∨ (e.timestamp = now ∧ e.expiresAt = now + defaultTTL) := by
  induction ds generalizing c with
  | nil => exact Or.inl h
  | cons d rest ih =>
    rw [List.foldl_cons] at h
    rcases ih _ h with h2 | h2
    · rcases mapGet_mapSet_cases c (generateKey d.identifier d.identifierType d.currency)
        k { data := d, timestamp := now, expiresAt := now + defaultTTL } e h2 with h3 | h3
      · exact Or.inl h3
      · subst h3
        exact Or.inr ⟨rfl, rfl⟩
    · exact Or.inr h2

/-- Every entry in the cache returned by the batch provider loop was
either there when the loop started or carries the default TTL stamp. -/
theorem batchLoop_cache_cases (now : ℕ) (ps : List Provider) :
    ∀ failed results cache calls (k : String) (e : CacheEntry),
      mapGet (batchLoop now ps failed results cache calls).2.1 k = some e →
      mapGet cache k = some e ∨ (e.timestamp = now ∧ e.expiresAt = now + defaultTTL) := by
  induction ps with
  | nil =>
    intro failed results cache calls k e h
    exact Or.inl h
  | cons p rest ih =>
    intro failed results cache calls k e h
    simp only [batchLoop] at h
    by_cases hE : failed.isEmpty = true
    · rw [if_pos hE] at h
      exact Or.inl h
    · rw [if_neg hE] at h
      by_cases hh : p.healthy = true
      · rw [if_pos hh] at h
        cases hbd : (p.batchOf failed).data with
        | none =>
          rw [hbd] at h
          dsimp only at h
          exact ih _ _ _ _ _ _ h
        | some ds =>
          rw [hbd] at h
          dsimp only at h
          by_cases hs : (p.batchOf failed).success = true
          · rw [if_pos hs] at h
            rcases ih _ _ _ _ _ _ h with h2 | h2
            · exact mapGet_foldl_cacheSet now ds cache k e h2
            · exact Or.inr h2
          · rw [if_neg hs] at h
            exact ih _ _ _ _ _ _ h
      · rw [if_neg hh] at h
        exact ih _ _ _ _ _ _ h

/-- Every batch call recorded by the batch provider loop was already in
the incoming log or submits a nonempty subset (in order) of the
outstanding requests. -/
theorem batchLoop_batch_calls (now : ℕ) (ps : List Provider) :
    ∀ failed results cache calls nm rs,
      ProviderCall.batch nm rs ∈ (batchLoop now ps failed results cache calls).2.2 →
      ProviderCall.batch nm rs ∈ calls ∨ (rs ≠ [] ∧ rs.Sublist failed) := by
  induction ps with
  | nil =>
    intro failed results cache calls nm rs h
    exact Or.inl h
  | cons p rest ih =>
    intro failed results cache calls nm rs h
    simp only [batchLoop] at h
    by_cases hE : failed.isEmpty = true
    · rw [if_pos hE] at h
      exact Or.inl h
    · rw [if_neg hE] at h
      have hfne : failed ≠ [] := by
        intro hc
        subst hc
        exact hE rfl
      by_cases hh : p.healthy = true
      · rw [if_pos hh] at h
        have hstep : ∀ failed2 results2 cache2,
            failed2.Sublist failed →
            ProviderCall.batch nm rs
              ∈ (batchLoop now rest failed2 results2 cache2
                  (calls ++ [ProviderCall.health p.name, ProviderCall.batch p.name failed])).2.2 →
            ProviderCall.batch nm rs ∈ calls ∨ (rs ≠ [] ∧ rs.Sublist failed) := by
          intro failed2 results2 cache2 hsub hmem
          rcases ih _ _ _ _ _ _ hmem with h2 | h2
          · rw [List.mem_append] at h2
            rcases h2 with h2 | h2
            · exact Or.inl h2
            · simp only [List.mem_cons, List.not_mem_nil, or_false] at h2
              rcases h2 with h2 | h2
              · cases h2
              · injection h2 with h3 h4
                subst h4
                exact Or.inr ⟨hfne, List.Sublist.refl _⟩
          · exact Or.inr ⟨h2.1, h2.2.trans hsub⟩
        cases hbd : (p.batchOf failed).data with
        | none =>
          rw [hbd] at h
          dsimp only at h
          exact hstep failed results cache (List.Sublist.refl _) h
        | some ds =>
          rw [hbd] at h
          dsimp only at h
          by_cases hs : (p.batchOf failed).success = true
          · rw [if_pos hs] at h
            exact hstep _ _ _ (List.filter_sublist _) h
          · rw [if_neg hs] at h
            exact hstep failed results cache (List.Sublist.refl _) h
      · rw [if_neg hh] at h
        rcases ih _ _ _ _ _ _ h with h2 | h2
        · rw [List.mem_append] at h2
          rcases h2 with h2 | h2
          · exact Or.inl h2
          · rw [List.mem_singleton] at h2
            cases h2
        · exact Or.inr h2

/-- Claim C7: getBatchPrices always answers with success = true; when
every request is a cache hit it makes no provider call and returns
exactly the cached data; every batch submission in its call log is a
nonempty in-order subset of the cache misses; the provider loop stops
as soon as no request remains unresolved; and every cache entry after
the call either predates the provider loop or is stamped with the fixed
default TTL.  The returned list holds only the resolved items, so it
may be shorter than the request list. -/
theorem claim7_batch_success (st : ServiceState) (now : ℕ) (reqs : List PriceRequest) :
    (svcGetBatchPrices st now reqs).1.success = true
    ∧ ((batchPartition st.cache now reqs).2.1 = [] →
        (svcGetBatchPrices st now reqs).2.2 = []
        ∧ (svcGetBatchPrices st now reqs).1.data
            = some (batchPartition st.cache now reqs).1)
    ∧ (∀ nm rs, ProviderCall.batch nm rs ∈ (svcGetBatchPrices st now reqs).2.2 →
        rs ≠ [] ∧ rs.Sublist (batchPartition st.cache now reqs).2.1)
    ∧ (∀ p rest results cache calls,
        batchLoop now (p :: rest) [] results cache calls = (results, cache, calls))
    ∧ (∀ (k : String) (e : CacheEntry),
        mapGet (svcGetBatchPrices st now reqs).2.1.cache k = some e →
        mapGet (batchPartition st.cache now reqs).2.2 k = some e
        ∨ (e.timestamp = now ∧ e.expiresAt = now + defaultTTL)) := by
  refine ⟨?_, ?_, ?_, ?_, ?_⟩
  · simp only [svcGetBatchPrices]
    by_cases hE : (batchPartition st.cache now reqs).2.1.isEmpty = true
    · rw [if_pos hE]
    · rw [if_neg hE]
  · intro h0
    have hE : (batchPartition st.cache now reqs).2.1.isEmpty = true := by
      rw [h0]
      rfl
    constructor
    · simp only [svcGetBatchPrices]
      rw [if_pos hE]
    · simp only [svcGetBatchPrices]
      rw [if_pos hE]
  · intro nm rs h
    simp only [svcGetBatchPrices] at h
    by_cases hE : (batchPartition st.cache now reqs).2.1.isEmpty = true
    · rw [if_pos hE] at h
      exact absurd h (List.not_mem_nil _)
    · rw [if_neg hE] at h
      dsimp only at h
      rcases batchLoop_batch_calls now st.providers _ _ _ _ nm rs h with h2 | h2
      · exact absurd h2 (List.not_mem_nil _)
      · exact h2
  · intro p rest results cache calls
    rfl
  · intro k e h
    simp only [svcGetBatchPrices] at h
    by_cases hE : (batchPartition st.cache now reqs).2.1.isEmpty = true
    · rw [if_pos hE] at h
      dsimp only at h
      exact Or.inl h
    · rw [if_neg hE] at h
      dsimp only at h
      exact batchLoop_cache_cases now st.providers _ _ _ _ k e h

/-- C7 witness: the claim at concrete inputs — a fresh single-provider
service resolves the one-request batch through the provider (with the
batch call submitting exactly the one miss and the resulting cache
entry stamped with the default TTL), the pre-populated service answers
from cache with no calls, and the loop ignores its providers once the
miss list is empty. -/
theorem claim7_witness :
    (svcGetBatchPrices (mkService [okProvider]) 0 [sampleRequest]).1.success = true
    ∧ (svcGetBatchPrices cachedState 5 [sampleRequest]).2.2 = []
    ∧ (svcGetBatchPrices cachedState 5 [sampleRequest]).1.data
        = some (batchPartition cachedState.cache 5 [sampleRequest]).1
    ∧ ([sampleRequest] ≠ []
      ∧ List.Sublist [sampleRequest]
          (batchPartition (mkService [okProvider]).cache 0 [sampleRequest]).2.1)
    ∧ batchLoop 0 [okProvider] [] [samplePriceData] [] [] = ([samplePriceData], [], [])
    ∧ (mapGet (batchPartition (mkService [okProvider]).cache 0 [sampleRequest]).2.2
          (generateKey "AAPL" IdentifierType.SYMBOL Currency.USD)
          = some { data := samplePriceData, timestamp := 0, expiresAt := 0 + defaultTTL }
        ∨ ({ data := samplePriceData, timestamp := 0,
             expiresAt := 0 + defaultTTL : CacheEntry }.timestamp = 0
          ∧ { data := samplePriceData, timestamp := 0,
              expiresAt := 0 + defaultTTL : CacheEntry }.expiresAt = 0 + defaultTTL)) := by
  have h7 := claim7_batch_success (mkService [okProvider]) 0 [sampleRequest]
  have h7c := claim7_batch_success cachedState 5 [sampleRequest]
  have hall := h7c.2.1 (by with_unfolding_all rfl)
  refine ⟨h7.1, hall.1, hall.2, ?_,
    h7.2.2.2.1 okProvider [] [samplePriceData] [] [], ?_⟩
  · exact h7.2.2.1 "P2" [sampleRequest] (by decide)
  · exact h7.2.2.2.2 (generateKey "AAPL" IdentifierType.SYMBOL Currency.USD)
      { data := samplePriceData, timestamp := 0, expiresAt := 0 + defaultTTL }
      (by with_unfolding_all rfl)

end Invest